import Mathlib

/-!
# delayq: a Redis-backed delay queue

A shallow embedding of `delayq.go` (the producer `AddMsg` and the consumer loop
`Dequeue`) and of `dqradix/dqradix.go` (the pairing of a flat
`ZRANGEBYSCORE ... WITHSCORES` reply), followed by the properties proved about them.

Modelling conventions.

* `time.Time` is the number of nanoseconds since the Unix epoch and
  `time.Duration` a number of nanoseconds, both integers. `UnixNano` is an `int64`:
  it wraps for a time outside the range of `int64` nanoseconds. `Time.Sub` is the
  exact difference, two times of a run lying less than `2 ^ 63` ns apart, where
  `Sub` does not saturate.
* A Redis score (`float64` in the source) is given by its value. The scores the
  queue writes hold integers, and `float64(n)` rounds the `int64` `n` to the nearest
  number with a mantissa of 53 bits, a tie going to the even mantissa, as IEEE 754
  does: at present-day times the scores are multiples of 256 ns.
* A method of the store is handed the context; the context is given by its state
  at the call, the value of `ctx.Err()`.
* A Go `error` is `Option Error`, `none` being `nil`.
* The package variables `now` and `sleep` are the virtual clock of the test:
  `now` reads the clock, `sleep d` advances it by exactly `d` and nothing else
  advances it.
* The endless `for` loop of `Dequeue` runs on fuel, one unit per pass; the outcome
  `running` says that the call has not returned within the fuel given.
* The world carries a log of the observable events (sleeps, handler invocations,
  store calls) in the order in which they happen.
-/

namespace Delayq

/-! ## Data model -/

/-- Go `[]byte`. -/
abbrev Bytes := List UInt8

/-- Go `time.Time`, in nanoseconds since the Unix epoch. -/
abbrev Time := Int

/-- Go `time.Duration`, in nanoseconds. -/
abbrev Duration := Int

/-- Go `float64`, given by its value, for a score that holds an integer. -/
abbrev Float64 := Int

/-- The text of a non-nil Go `error`. -/
abbrev Error := String

/-- Go `error`: `none` is `nil`. -/
abbrev GoError := Option Error

/-- The package variable `ErrExists`. -/
def ErrExists : Error := "element already exists"

/-- Go `io.EOF`. -/
def EOF : Error := "EOF"

/-- Go `time.Second`. -/
def Second : Duration := 1000000000

/-- Go `time.Millisecond`. -/
def Millisecond : Duration := 1000000

/-- Go `Time.Add`. -/
@[simp] def Time.Add (t : Time) (d : Duration) : Time := t + d

/-- Go `Time.Sub`. -/
@[simp] def Time.Sub (t u : Time) : Duration := t - u

/-- Go `Time.After`. -/
@[simp] def Time.After (t u : Time) : Bool := decide (u < t)

/-- The `int64` an integer wraps to. -/
def wrap64 (n : Int) : Int := (n + 2 ^ 63) % 2 ^ 64 - 2 ^ 63

/-- Go `Time.UnixNano`: an `int64`, so that a time outside the range of `int64`
nanoseconds (the years 1678 to 2262) wraps. -/
def Time.UnixNano (t : Time) : Int := wrap64 t

/-- Go `time.Unix(sec, nsec)`. -/
@[simp] def time_Unix (sec nsec : Int) : Time := sec * 1000000000 + nsec

/-- The search for the spacing of the `float64` numbers at `a`, from the spacing
`q` upwards: the first power of two `q` with `a < 2 ^ 53 * q`. -/
def ulpAux : Nat → Nat → Nat → Nat
  | 0, _, q => q
  | fuel + 1, a, q => if a < 2 ^ 53 * q then q else ulpAux fuel a (2 * q)

/-- The spacing of the `float64` numbers at the natural number `a`: 1 below
`2 ^ 53`, 2 below `2 ^ 54`, and so on. -/
def ulp (a : Nat) : Nat := ulpAux a a 1

/-- The `float64` nearest to the natural number `a`: the nearest multiple of the
spacing at `a`, a tie going to the even multiple. -/
def roundNat (a : Nat) : Nat :=
  if 2 * (a % ulp a) < ulp a then a / ulp a * ulp a
  else if ulp a < 2 * (a % ulp a) then (a / ulp a + 1) * ulp a
  else if a / ulp a % 2 = 0 then a / ulp a * ulp a
  else (a / ulp a + 1) * ulp a

/-- The conversion `float64(n)` of an `int64`: the nearest `float64`, a tie going
to the even mantissa. -/
def float64 (n : Int) : Float64 :=
  if 0 ≤ n then (roundNat n.toNat : Int) else -(roundNat (-n).toNat : Int)

/-- The conversion `int64(f)` of a `float64` that holds an integer in the range of
`int64`. -/
@[simp] def int64 (f : Float64) : Int := f

/-- The struct `Msg`; `Deadline` carries the tag `json:"-"`. -/
structure Msg where
  ID : String
  Data : Bytes
  Deadline : Time
deriving DecidableEq, Repr

/-- The anonymous struct of `ZRangeByScore`: a member with its score. -/
structure Tuple where
  Member : Bytes
  Score : Float64
deriving DecidableEq, Repr

/-- The struct `options`. -/
structure options where
  PollPeriod : Duration
deriving DecidableEq, Repr

/-- The functional option `WithPollPeriod`. -/
def WithPollPeriod (d : Duration) : options → options :=
  fun o => { o with PollPeriod := d }

/-- The interface `Redis` over a store state `σ`. Each method takes the state of
the store and the context, given by the value of `ctx.Err()` at the call, and
returns the next state of the store with its Go results. -/
structure Redis (σ : Type) where
  ZAddNX : σ → GoError → String → Float64 → Bytes → σ × Except Error Int
  ZRem : σ → GoError → String → Bytes → σ × GoError
  ZRangeByScore : σ → GoError → String → Float64 → Float64 →
    σ × Except Error (List Tuple)

/-- The struct `Queue`. -/
structure Queue (σ : Type) where
  name : String
  cl : Redis σ

/-- The function `New`. -/
def New {σ : Type} (cl : Redis σ) (name : String) : Queue σ :=
  { name := name, cl := cl }

/-- The library `encoding/json` on a `Msg`: `Marshal` sees the tagged fields `id`
and `data` only, `Unmarshal` fills them in a zero `Msg`. -/
structure Json where
  Marshal : String → Bytes → Except Error Bytes
  Unmarshal : Bytes → Except Error (String × Bytes)

/-- The caller of `Dequeue`: the context and the handler, both over a caller
state `η` that the handler may change (it may cancel the context). -/
structure Caller (η : Type) where
  ctxErr : η → GoError
  handler : η → Msg → η × GoError

/-- The observable events, each with what was passed. -/
inductive Event where
  | sleep (t : Time) (d : Duration)
  | handle (t : Time) (m : Msg)
  | zaddnx (key : String) (score : Float64) (member : Bytes)
  | zrem (key : String) (member : Bytes)
  | zrange (key : String) (min max : Float64) (el : List Tuple)
deriving DecidableEq, Repr

/-- The world a call runs in: virtual clock, store, caller state, event log. -/
structure World (σ η : Type) where
  clock : Time
  store : σ
  env : η
  log : List Event

/-- How a call stands: not returned yet, or returned with an error value. -/
inductive Outcome where
  | running
  | returned (err : GoError)
deriving DecidableEq, Repr

section Embedding

variable {σ η : Type}

/-- The package variable `now` under the virtual clock. -/
def now (w : World σ η) : Time := w.clock

/-- The package variable `sleep` under the virtual clock. -/
def sleep (d : Duration) (w : World σ η) : World σ η :=
  { w with clock := w.clock.Add d, log := w.log ++ [Event.sleep w.clock d] }

/-- The options of a `Dequeue` call: the default, then each option in turn. -/
def applyOpts (opts : List (options → options)) : options :=
  opts.foldl (fun o opt => opt o) { PollPeriod := Second }

/-- The inner `for i := 0; i < len(el); i++` loop of `Dequeue`, from entry `i` on.
The outcome `running` says the loop reached the end of the batch. -/
def deliver (q : Queue σ) (js : Json) (c : Caller η) :
    List Tuple → World σ η → World σ η × Outcome
  | [], w => (w, Outcome.running)
  | x :: el, w =>
    match js.Unmarshal x.Member with
    | Except.error e => (w, Outcome.returned (some e))
    | Except.ok (id, data) =>
      let n := now w
      let m : Msg := { ID := id, Data := data, Deadline := time_Unix 0 (int64 x.Score) }
      let w1 := if m.Deadline.After n then sleep (m.Deadline.Sub n) w else w
      let h := c.handler w1.env m
      let w2 : World σ η := { w1 with env := h.1, log := w1.log ++ [Event.handle w1.clock m] }
      match h.2 with
      | some e => (w2, Outcome.returned (some e))
      | none =>
        let r := q.cl.ZRem w2.store (c.ctxErr w2.env) q.name x.Member
        let w3 : World σ η :=
          { w2 with store := r.1, log := w2.log ++ [Event.zrem q.name x.Member] }
        match r.2 with
        | some e => (w3, Outcome.returned (some e))
        | none => deliver q js c el w3

/-- One pass of the outer `for` loop of `Dequeue`. The outcome `running` says the
pass reached its end, so the loop goes round again. -/
def iteration (q : Queue σ) (js : Json) (c : Caller η) (o : options)
    (w : World σ η) : World σ η × Outcome :=
  match c.ctxErr w.env with
  | some e => (w, Outcome.returned (some e))
  | none =>
    let nextPoll := (now w).Add o.PollPeriod
    let r := q.cl.ZRangeByScore w.store (c.ctxErr w.env) q.name 0 (float64 nextPoll.UnixNano)
    match r.2 with
    | Except.error e =>
      ({ w with store := r.1,
                log := w.log ++ [Event.zrange q.name 0 (float64 nextPoll.UnixNano) []] },
        Outcome.returned (some e))
    | Except.ok el =>
      let w1 : World σ η :=
        { w with store := r.1,
                 log := w.log ++ [Event.zrange q.name 0 (float64 nextPoll.UnixNano) el] }
      match deliver q js c el w1 with
      | (w2, Outcome.returned err) => (w2, Outcome.returned err)
      | (w2, Outcome.running) => (sleep (nextPoll.Sub (now w2)) w2, Outcome.running)

/-- The outer `for` loop of `Dequeue` on fuel. -/
def loop (q : Queue σ) (js : Json) (c : Caller η) (o : options) :
    Nat → World σ η → World σ η × Outcome
  | 0, w => (w, Outcome.running)
  | fuel + 1, w =>
    match iteration q js c o w with
    | (w1, Outcome.running) => loop q js c o fuel w1
    | (w1, Outcome.returned err) => (w1, Outcome.returned err)

/-- The method `Queue.Dequeue`. -/
def Dequeue (q : Queue σ) (js : Json) (c : Caller η) (opts : List (options → options))
    (fuel : Nat) (w : World σ η) : World σ η × Outcome :=
  loop q js c (applyOpts opts) fuel w

/-- The method `Queue.AddMsg`, called with a context in the state `ctx`. -/
def AddMsg (q : Queue σ) (js : Json) (ctx : GoError) (msg : Msg) (w : World σ η) :
    World σ η × GoError :=
  match js.Marshal msg.ID msg.Data with
  | Except.error e => (w, some e)
  | Except.ok b =>
    let r := q.cl.ZAddNX w.store ctx q.name (float64 msg.Deadline.UnixNano) b
    let w1 : World σ η :=
      { w with store := r.1,
               log := w.log ++ [Event.zaddnx q.name (float64 msg.Deadline.UnixNano) b] }
    match r.2 with
    | Except.error e => (w1, some e)
    | Except.ok count => if count = 0 then (w1, some ErrExists) else (w1, none)

end Embedding

/-! ## The ordered store -/

/-- An entry of the store: a member and its score in the sorted set at `key`. -/
structure Entry where
  key : String
  member : Bytes
  score : Float64
deriving DecidableEq, Repr

/-- The state of the store: its entries, in the order of insertion. -/
abbrev Store := List Entry

/-- Byte order of two members (the order of `memcmp`, the shorter first on a tie). -/
def bytesLE : Bytes → Bytes → Bool
  | [], _ => true
  | _ :: _, [] => false
  | x :: xs, y :: ys => decide (x.toNat < y.toNat) || (decide (x.toNat = y.toNat) && bytesLE xs ys)

/-- The order of a sorted set: by score, ties by the byte order of the member. -/
def tupleLE (a b : Tuple) : Prop :=
  a.Score < b.Score ∨ (a.Score = b.Score ∧ bytesLE a.Member b.Member = true)

instance tupleLE_decidable : DecidableRel tupleLE := fun a b => by
  unfold tupleLE; exact inferInstance

/-- Whether an entry is the member `member` of the sorted set at `key`. -/
def Entry.isAt (key : String) (member : Bytes) (e : Entry) : Bool :=
  decide (e.key = key) && decide (e.member = member)

/-- Whether an entry of the sorted set at `key` has its score in `[min, max]`. -/
def Entry.inRange (key : String) (min max : Float64) (e : Entry) : Bool :=
  decide (e.key = key) && (decide (min ≤ e.score) && decide (e.score ≤ max))

/-- The member and score of an entry. -/
def Entry.tuple (e : Entry) : Tuple := { Member := e.member, Score := e.score }

/-- Modelled from the spec: the Redis server behind the interface `Redis` is not
part of the repository; this is the ordered-store contract of the specification
(section 6, with the tie order of section 3). `InsertIfAbsent` inserts only if the
member is not already present under the key and returns 1 if inserted, 0 if
already present; `Remove` removes the member if present, with no error if absent;
`RangeByScore` returns the entries with score in the inclusive bounds, ascending
by score. No call fails, whatever the context. -/
def memRedis : Redis Store where
  ZAddNX := fun s _ key score member =>
    if s.any (Entry.isAt key member) then (s, Except.ok 0)
    else (s ++ [{ key := key, member := member, score := score }], Except.ok 1)
  ZRem := fun s _ key member => (s.filter (fun e => !Entry.isAt key member e), none)
  ZRangeByScore := fun s _ key min max =>
    (s, Except.ok (((s.filter (Entry.inRange key min max)).map Entry.tuple).insertionSort tupleLE))

/-- A client that honours the context it is handed, as the client of `dqradix`
does: each of its methods passes its context on to radix (`c.cl.Do(ctx, ...)`),
where a call made with a cancelled context fails with the error of the context and
leaves the store as it is. A call made with a live context is the call of `r`. -/
def honouring {σ : Type} (r : Redis σ) : Redis σ where
  ZAddNX := fun s ctx key score member =>
    match ctx with
    | some e => (s, Except.error e)
    | none => r.ZAddNX s none key score member
  ZRem := fun s ctx key member =>
    match ctx with
    | some e => (s, some e)
    | none => r.ZRem s none key member
  ZRangeByScore := fun s ctx key min max =>
    match ctx with
    | some e => (s, Except.error e)
    | none => r.ZRangeByScore s none key min max

/-! ## dqradix: pairing a flat reply -/

namespace Dqradix

/-- The loop `for i := 0; i < len(res); i++` of `Client.ZRangeByScore` from index
`i` on, with the current values of `tuple` and `tuples`; `ParseFloat` is
`strconv.ParseFloat(_, 64)`. A failure returns `nil` with the error. -/
def pairLoop (ParseFloat : Bytes → Except Error Float64) :
    List Bytes → Nat → Tuple → List Tuple → List Tuple × GoError
  | [], _, _, tuples => (tuples, none)
  | b :: res, i, tuple, tuples =>
    if i % 2 = 0 then
      pairLoop ParseFloat res (i + 1) { tuple with Member := b } tuples
    else
      match ParseFloat b with
      | Except.error e => ([], some e)
      | Except.ok f =>
        pairLoop ParseFloat res (i + 1) { tuple with Score := f }
          (tuples ++ [{ tuple with Score := f }])

/-- The method `Client.ZRangeByScore`, on the outcome `reply` of the radix call
`Do(ctx, FlatCmd(&res, "ZRANGEBYSCORE", key, min, max, "WITHSCORES"))`. -/
def ZRangeByScore (ParseFloat : Bytes → Except Error Float64)
    (reply : Except Error (List Bytes)) : List Tuple × GoError :=
  match reply with
  | Except.error e => ([], some e)
  | Except.ok res =>
    if res.length % 2 ≠ 0 then ([], some "unexpeted number of results")
    else pairLoop ParseFloat res 0 { Member := [], Score := 0 } []

end Dqradix

/-! ## Notions used in the statements -/

/-- The places an error returned by `Dequeue` can come from: the context, the
range query, the removal, the decoding of a member, the handler. -/
def ErrorSource {σ η : Type} (q : Queue σ) (js : Json) (c : Caller η) (err : GoError) : Prop :=
  (∃ e, c.ctxErr e = err) ∨
  (∃ s ctx k lo hi e, (q.cl.ZRangeByScore s ctx k lo hi).2 = Except.error e ∧ err = some e) ∨
  (∃ s ctx k m, (q.cl.ZRem s ctx k m).2 = err) ∨
  (∃ b e, js.Unmarshal b = Except.error e ∧ err = some e) ∨
  (∃ e m, (c.handler e m).2 = err)

/-- The messages passed to the handler in a log, in order. -/
def handled : List Event → List Msg
  | [] => []
  | Event.handle _ m :: l => m :: handled l
  | _ :: l => handled l

/-- The members whose removal was requested in a log, in order. -/
def removed : List Event → List Bytes
  | [] => []
  | Event.zrem _ member :: l => member :: removed l
  | _ :: l => removed l

/-- The durations of the sleeps requested in a log, in order. -/
def sleeps : List Event → List Duration
  | [] => []
  | Event.sleep _ d :: l => d :: sleeps l
  | _ :: l => sleeps l

/-- The message `Dequeue` builds from a fetched entry: the decoded ID and data,
with the deadline given by the score; `none` if the member does not decode. -/
def decoded (js : Json) (x : Tuple) : Option Msg :=
  match js.Unmarshal x.Member with
  | Except.error _ => none
  | Except.ok (id, data) =>
    some { ID := id, Data := data, Deadline := time_Unix 0 (int64 x.Score) }

/-- The handler invoked on the messages `ms` one after the other from the caller
state `e`, up to its first error: the caller state reached and that error, or nil
when every invocation returned nil. -/
def handlerRun {η : Type} (c : Caller η) : η → List Msg → η × GoError
  | e, [] => (e, none)
  | e, m :: ms =>
    match (c.handler e m).2 with
    | some err => ((c.handler e m).1, some err)
    | none => handlerRun c (c.handler e m).1 ms

/-- The world `w'` continues the world `w`: its log extends the log of `w` by
events whose sleeps are positive, and its clock is the clock of `w` plus those
sleeps. -/
def Continues {σ η : Type} (w w' : World σ η) : Prop :=
  ∃ evs, w'.log = w.log ++ evs ∧ (∀ d ∈ sleeps evs, 0 < d) ∧
    w'.clock = w.clock + (sleeps evs).sum

/-- What the delivery of a batch to its end comes to for the store and the caller,
entry by entry: the handler is invoked on the message decoded from the entry, in
the state the caller is in, and the entry is then removed from the store, the
context being in the state the handler left it in. -/
def settle {σ η : Type} (q : Queue σ) (js : Json) (c : Caller η) :
    List Tuple → σ × η → σ × η
  | [], se => se
  | x :: el, se =>
    match decoded js x with
    | none => se
    | some m =>
      settle q js c el
        ((q.cl.ZRem se.1 (c.ctxErr (c.handler se.2 m).1) q.name x.Member).1,
          (c.handler se.2 m).1)

/-- What makes a handler invocation timely: invoked at time `t` with the message
`m` after the events `pre`, the deadline of `m` is not after `t`; `m` is what some
entry of a batch fetched before decodes to, its deadline being the instant given
by the score of that entry; and either the event just before is a sleep requested
at a time `t0` strictly before the deadline, for the difference exactly, which
ends at `t`, or the event just before is no sleep and the deadline is not after
the current time. -/
def Timely (js : Json) (pre : List Event) (t : Time) (m : Msg) : Prop :=
  m.Deadline ≤ t ∧
  (∃ k lo hi el x, Event.zrange k lo hi el ∈ pre ∧ x ∈ el ∧ decoded js x = some m) ∧
  ((∃ pre' t0, pre = pre' ++ [Event.sleep t0 (m.Deadline.Sub t0)] ∧
      m.Deadline.After t0 = true ∧ t = t0.Add (m.Deadline.Sub t0)) ∨
   ((∀ pre' t0 d, pre ≠ pre' ++ [Event.sleep t0 d]) ∧ m.Deadline.After t = false))

/-- Every handler invocation of a run of events is timely. -/
def AllTimely (js : Json) (evs : List Event) : Prop :=
  ∀ pre t m post, evs = pre ++ Event.handle t m :: post → Timely js pre t m

/-- Admission of a list of messages, one `AddMsg` after the other with a live
context (the test passes `context.Background()`), with the errors returned. -/
def addAll {σ η : Type} (q : Queue σ) (js : Json) :
    List Msg → World σ η → World σ η × List GoError
  | [], w => (w, [])
  | m :: ms, w =>
    let r := AddMsg q js none m w
    let rs := addAll q js ms r.1
    (rs.1, r.2 :: rs.2)

/-- The members of each sorted set of a store are distinct. -/
def UniqueMembers (s : Store) : Prop :=
  s.Pairwise (fun a b => a.key = b.key → a.member ≠ b.member)

/-- The store after the removal of the members of `pre` from the sorted set at
`name`, one `ZRem` after the other. -/
def removeAll (name : String) (pre : List Tuple) (s : Store) : Store :=
  pre.foldl (fun s y => (memRedis.ZRem s none name y.Member).1) s

/-- The tuples of the sorted set at `name` in a store, in the order of insertion. -/
def queueTuples (name : String) (s : Store) : List Tuple :=
  (s.filter (fun e => decide (e.key = name))).map Entry.tuple

/-- The member `AddMsg` sends to the store for a message: the encoding of its ID
and data (empty where the encoding fails and nothing is sent). -/
def memberOf (js : Json) (m : Msg) : Bytes :=
  match js.Marshal m.ID m.Data with
  | Except.ok b => b
  | Except.error _ => []

/-- The score `AddMsg` sends to the store for a message: `float64` of the
`UnixNano` of its deadline. -/
def Msg.score (m : Msg) : Float64 := float64 m.Deadline.UnixNano

/-- The tuple `AddMsg` stores for a message: its member with its score. -/
def tupleOf (js : Json) (m : Msg) : Tuple :=
  { Member := memberOf js m, Score := m.score }

/-- The message `Dequeue` hands to the handler for an admitted message: the ID and
the data as admitted, the deadline being the instant given by the score. -/
def delivered (m : Msg) : Msg :=
  { m with Deadline := time_Unix 0 (int64 m.score) }

/-- The upper bound of the range query in the pass number `K` (from 0) of a run of
`Dequeue` that starts at the time `t0` with the poll period `p`, each earlier pass
having run to its end, that is to its `nextPoll`. -/
def pollBound (t0 : Time) (p : Duration) (K : Nat) : Float64 :=
  float64 ((t0.Add (K * p)).Add p).UnixNano

/-- The scenario of the delivery-order test: the messages `init ++ [last]` have
strictly increasing scores, none negative; each is encoded to a member that
decodes to its ID and data; the members are distinct; the context is never
cancelled; from the caller state `e0` the handler returns nil on the messages of
`init` as delivered, in turn, and then the error `E` on `last`. -/
structure Scenario {η : Type} (js : Json) (c : Caller η) (e0 : η) (init : List Msg)
    (last : Msg) (E : Error) : Prop where
  sorted : (init ++ [last]).Pairwise (fun a b => a.score < b.score)
  nonneg : ∀ m ∈ init ++ [last], 0 ≤ m.score
  round : ∀ m ∈ init ++ [last], ∃ b, js.Marshal m.ID m.Data = Except.ok b ∧
    js.Unmarshal b = Except.ok (m.ID, m.Data)
  distinct : ((init ++ [last]).map (memberOf js)).Nodup
  live : ∀ e, c.ctxErr e = none
  ok : (handlerRun c e0 (init.map delivered)).2 = none
  err : (c.handler (handlerRun c e0 (init.map delivered)).1 (delivered last)).2 = some E

/-- Where a run of the scenario stands at the start of a pass: the messages `done`
have been delivered and removed, the messages `rem` and `last` are the queue. -/
def Pending {η : Type} (js : Json) (c : Caller η) (name : String) (e0 : η) (H0 : List Msg)
    (init : List Msg) (last : Msg) (done rem : List Msg) (w : World Store η) : Prop :=
  init = done ++ rem ∧
  (queueTuples name w.store).Perm ((rem ++ [last]).map (tupleOf js)) ∧
  w.env = (handlerRun c e0 (done.map delivered)).1 ∧
  handled w.log = H0 ++ done.map delivered

/-- The pairing the reply format asks for, two elements at a time: a member, then
its score as text. The first score that does not parse gives its error. -/
def Dqradix.pairs (ParseFloat : Bytes → Except Error Float64) :
    List Bytes → Except Error (List Tuple)
  | member :: score :: rest =>
    match ParseFloat score with
    | Except.error e => Except.error e
    | Except.ok f =>
      match Dqradix.pairs ParseFloat rest with
      | Except.error e => Except.error e
      | Except.ok l => Except.ok ({ Member := member, Score := f } :: l)
  | _ => Except.ok []

/-! ## Concrete runs -/

/-- A stand-in for `encoding/json` in concrete runs: the bytes of the ID, a zero
byte, then the data. It reads back what it wrote for an ID without a zero
character. -/
def plainJson : Json where
  Marshal := fun id data => Except.ok (id.toList.map (fun ch => ch.toNat.toUInt8) ++ 0 :: data)
  Unmarshal := fun b =>
    Except.ok (String.mk ((b.takeWhile (fun x => x != 0)).map (fun x => Char.ofNat x.toNat)),
      (b.dropWhile (fun x => x != 0)).drop 1)

/-- A stand-in for `strconv.ParseFloat` in concrete runs: it reads a non-empty
run of decimal digits and fails on anything else. -/
def parseDecimal (b : Bytes) : Except Error Float64 :=
  if b ≠ [] ∧ b.all (fun x => decide (48 ≤ x.toNat) && decide (x.toNat ≤ 57)) = true then
    Except.ok (Int.ofNat (b.foldl (fun acc x => 10 * acc + (x.toNat - 48)) 0))
  else Except.error "invalid syntax"

/-- The caller of the test: a context that is never cancelled and a handler that
counts its invocations in the caller state and returns the error `err` (`io.EOF`
in the test) from the `total`-th on. -/
def stopAfter (total : Nat) (err : Error) : Caller Nat where
  ctxErr := fun _ => none
  handler := fun i _ => (i + 1, if total ≤ i + 1 then some err else none)

/-- A caller whose context is never cancelled and whose handler always succeeds. -/
def neverStop : Caller Nat where
  ctxErr := fun _ => none
  handler := fun i _ => (i + 1, none)

/-- A caller whose handler cancels the context on its first invocation and succeeds. -/
def cancelOnFirst : Caller Bool where
  ctxErr := fun cancelled => if cancelled then some "context canceled" else none
  handler := fun _ _ => (true, none)

/-- The queue of the test, over the model store. -/
def testQueue : Queue Store := New memRedis "delayq"

/-- The message `makeMsg(i)` of the test, for a start time `t0`. -/
def makeMsg (t0 : Time) (i : Nat) : Msg :=
  { ID := toString i, Data := (toString i).toList.map (fun ch => ch.toNat.toUInt8),
    Deadline := t0.Add (Millisecond * 200 * i) }

/-- A world at time `t0` with an empty store, an empty log and caller state `e`. -/
def emptyWorld {η : Type} (t0 : Time) (e : η) : World Store η :=
  { clock := t0, store := [], env := e, log := [] }

/-- The world of the test at time `t0` after the admission of the messages
`makeMsg t0 (total - 1)`, ..., `makeMsg t0 0`, in that order, into an empty store. -/
def testWorld (t0 : Time) (total : Nat) : World Store Nat :=
  (addAll testQueue plainJson ((List.range total).reverse.map (makeMsg t0)) (emptyWorld t0 0)).1


/-! # Properties -/

/-! ## Rounding to a `float64` and wrapping to an `int64` -/

section Rounding

theorem ulpAux_spec : ∀ (f a q : Nat), (∃ e, q = 2 ^ e) → (q = 1 ∨ 2 ^ 52 * q ≤ a) →
    a < 2 ^ 53 * (q * 2 ^ f) →
    (∃ e, ulpAux f a q = 2 ^ e) ∧ a < 2 ^ 53 * ulpAux f a q ∧
      (ulpAux f a q = 1 ∨ 2 ^ 52 * ulpAux f a q ≤ a) := by
  intro f
  induction f with
  | zero =>
    intro a q hq hlow hfuel
    simp only [ulpAux]
    exact ⟨hq, by simpa using hfuel, hlow⟩
  | succ f ih =>
    intro a q hq hlow hfuel
    simp only [ulpAux]
    by_cases h : a < 2 ^ 53 * q
    · rw [if_pos h]
      exact ⟨hq, h, hlow⟩
    · rw [if_neg h]
      obtain ⟨e, he⟩ := hq
      apply ih a (2 * q) ⟨e + 1, by rw [he, pow_succ]; ring⟩
      · right
        omega
      · have : q * 2 ^ (f + 1) = 2 * q * 2 ^ f := by rw [pow_succ]; ring
        rw [this] at hfuel
        exact hfuel

theorem ulp_spec (a : Nat) :
    (∃ e, ulp a = 2 ^ e) ∧ a < 2 ^ 53 * ulp a ∧ (ulp a = 1 ∨ 2 ^ 52 * ulp a ≤ a) := by
  apply ulpAux_spec a a 1 ⟨0, rfl⟩ (Or.inl rfl)
  have h1 : a < 2 ^ a := Nat.lt_two_pow a
  have h2 : 0 < 2 ^ a := Nat.pos_of_ne_zero (by positivity)
  omega

theorem ulp_pos (a : Nat) : 0 < ulp a := by
  obtain ⟨⟨e, he⟩, _, _⟩ := ulp_spec a
  rw [he]
  positivity

theorem two_pow_lt (e₁ e₂ : Nat) (h : 2 ^ e₁ < 2 ^ e₂) : 2 * 2 ^ e₁ ≤ 2 ^ e₂ := by
  have h1 : e₁ < e₂ := (Nat.pow_lt_pow_iff_right (by norm_num)).mp h
  calc 2 * 2 ^ e₁ = 2 ^ (e₁ + 1) := by rw [pow_succ]; ring
    _ ≤ 2 ^ e₂ := Nat.pow_le_pow_right (by norm_num) h1

theorem ulp_mono (a b : Nat) (h : a ≤ b) : ulp a ≤ ulp b := by
  obtain ⟨⟨ea, hea⟩, _, ha3⟩ := ulp_spec a
  obtain ⟨⟨eb, heb⟩, hb2, _⟩ := ulp_spec b
  by_contra hlt
  have hlt' : ulp b < ulp a := Nat.lt_of_not_le hlt
  have h2 : 2 * ulp b ≤ ulp a := by
    rw [hea, heb] at hlt' ⊢
    exact two_pow_lt _ _ hlt'
  have hpos := ulp_pos b
  rcases ha3 with h1 | h1
  · omega
  · omega

theorem roundNat_ge (a : Nat) : a / ulp a * ulp a ≤ roundNat a := by
  unfold roundNat
  have hpos := ulp_pos a
  split
  · exact le_refl _
  · split
    · exact Nat.mul_le_mul_right _ (Nat.le_succ _)
    · split
      · exact le_refl _
      · exact Nat.mul_le_mul_right _ (Nat.le_succ _)

theorem roundNat_le (a : Nat) : roundNat a ≤ (a / ulp a + 1) * ulp a := by
  unfold roundNat
  split
  · exact Nat.mul_le_mul_right _ (Nat.le_succ _)
  · split
    · exact le_refl _
    · split
      · exact Nat.mul_le_mul_right _ (Nat.le_succ _)
      · exact le_refl _

theorem roundNat_mono (a b : Nat) (h : a ≤ b) : roundNat a ≤ roundNat b := by
  have hq := ulp_mono a b h
  have hpa := ulp_pos a
  have hpb := ulp_pos b
  rcases Nat.lt_or_ge (ulp a) (ulp b) with hlt | hge
  · obtain ⟨⟨ea, hea⟩, ha2, _⟩ := ulp_spec a
    obtain ⟨⟨eb, heb⟩, _, hb3⟩ := ulp_spec b
    have h2 : 2 * ulp a ≤ ulp b := by
      rw [hea, heb] at hlt ⊢
      exact two_pow_lt _ _ hlt
    have hb : 2 ^ 52 * ulp b ≤ b := by
      rcases hb3 with h1 | h1
      · omega
      · exact h1
    have hka : a / ulp a < 2 ^ 53 := by
      rw [Nat.div_lt_iff_lt_mul hpa]
      exact ha2
    have hkb : 2 ^ 52 ≤ b / ulp b := by
      rw [Nat.le_div_iff_mul_le hpb]
      exact hb
    calc roundNat a ≤ (a / ulp a + 1) * ulp a := roundNat_le a
      _ ≤ 2 ^ 53 * ulp a := Nat.mul_le_mul_right _ hka
      _ = 2 ^ 52 * (2 * ulp a) := by ring
      _ ≤ 2 ^ 52 * ulp b := Nat.mul_le_mul_left _ h2
      _ ≤ b / ulp b * ulp b := Nat.mul_le_mul_right _ hkb
      _ ≤ roundNat b := roundNat_ge b
  · have heq : ulp a = ulp b := le_antisymm hq hge
    have hk : a / ulp a ≤ b / ulp a := Nat.div_le_div_right h
    rcases Nat.lt_or_ge (a / ulp a) (b / ulp a) with hklt | hkge
    · calc roundNat a ≤ (a / ulp a + 1) * ulp a := roundNat_le a
        _ ≤ b / ulp a * ulp a := Nat.mul_le_mul_right _ hklt
        _ = b / ulp b * ulp b := by rw [heq]
        _ ≤ roundNat b := roundNat_ge b
    · have hkeq : a / ulp a = b / ulp a := le_antisymm hk hkge
      have hr : a % ulp a ≤ b % ulp a := by
        have h1 := Nat.div_add_mod a (ulp a)
        have h2 := Nat.div_add_mod b (ulp a)
        rw [hkeq] at h1
        omega
      unfold roundNat
      rw [← heq, ← hkeq]
      have hstep : a / ulp a * ulp a ≤ (a / ulp a + 1) * ulp a :=
        Nat.mul_le_mul_right _ (Nat.le_succ _)
      by_cases c1 : 2 * (a % ulp a) < ulp a
      · rw [if_pos c1]
        split
        · exact le_refl _
        · split
          · exact hstep
          · split
            · exact le_refl _
            · exact hstep
      · rw [if_neg c1]
        have c1' : ¬ 2 * (b % ulp a) < ulp a := by omega
        rw [if_neg c1']
        by_cases c2 : ulp a < 2 * (a % ulp a)
        · have c2' : ulp a < 2 * (b % ulp a) := by omega
          rw [if_pos c2, if_pos c2']
        · rw [if_neg c2]
          by_cases c3 : ulp a < 2 * (b % ulp a)
          · rw [if_pos c3]
            split
            · exact hstep
            · exact le_refl _
          · rw [if_neg c3]

theorem roundNat_zero : roundNat 0 = 0 := by decide

theorem float64_mono (a b : Int) (h : a ≤ b) : float64 a ≤ float64 b := by
  unfold float64
  by_cases ha : 0 ≤ a
  · have hb : 0 ≤ b := le_trans ha h
    rw [if_pos ha, if_pos hb]
    exact_mod_cast roundNat_mono _ _ (Int.toNat_le_toNat h)
  · rw [if_neg ha]
    by_cases hb : 0 ≤ b
    · rw [if_pos hb]
      have h1 : (0 : Int) ≤ (roundNat (-a).toNat : Int) := Int.ofNat_nonneg _
      have h2 : (0 : Int) ≤ (roundNat b.toNat : Int) := Int.ofNat_nonneg _
      show -(roundNat (-a).toNat : Int) ≤ (roundNat b.toNat : Int)
      linarith
    · rw [if_neg hb]
      have : (roundNat (-b).toNat : Int) ≤ (roundNat (-a).toNat : Int) := by
        exact_mod_cast roundNat_mono _ _ (Int.toNat_le_toNat (by omega))
      show -(roundNat (-a).toNat : Int) ≤ -(roundNat (-b).toNat : Int)
      linarith

theorem float64_zero : float64 0 = 0 := by decide

theorem float64_nonneg (n : Int) (h : 0 ≤ n) : 0 ≤ float64 n := by
  have := float64_mono 0 n h
  rwa [float64_zero] at this

theorem wrap64_of_range (t : Int) (h1 : -2 ^ 63 ≤ t) (h2 : t < 2 ^ 63) : wrap64 t = t := by
  unfold wrap64
  rw [Int.emod_eq_of_lt (by linarith) (by linarith)]
  ring

theorem wrap64_lt (t : Int) : wrap64 t < 2 ^ 63 := by
  unfold wrap64
  have := Int.emod_lt_of_pos (t + 2 ^ 63) (show (0 : Int) < 2 ^ 64 by norm_num)
  linarith

theorem wrap64_ge (t : Int) : -2 ^ 63 ≤ wrap64 t := by
  unfold wrap64
  have := Int.emod_nonneg (t + 2 ^ 63) (show (2 : Int) ^ 64 ≠ 0 by norm_num)
  linarith

/-- The score of a time in the range of `int64` nanoseconds is not below the score
of an earlier such time: the rounding is monotone. -/
theorem score_mono (a b : Time) (ha : -2 ^ 63 ≤ a) (hab : a ≤ b) (hb : b < 2 ^ 63) :
    float64 a.UnixNano ≤ float64 b.UnixNano := by
  unfold Time.UnixNano
  rw [wrap64_of_range a ha (lt_of_le_of_lt hab hb), wrap64_of_range b (le_trans ha hab) hb]
  exact float64_mono a b hab

end Rounding

/-! ## Where a returned error comes from -/

section Sources

variable {σ η : Type}

theorem deliver_returned (q : Queue σ) (js : Json) (c : Caller η) :
    ∀ (el : List Tuple) (w : World σ η) (err : GoError),
      (deliver q js c el w).2 = Outcome.returned err → err ≠ none ∧ ErrorSource q js c err := by
  intro el
  induction el with
  | nil => intro w err h; simp [deliver] at h
  | cons x el ih =>
    intro w err h
    unfold deliver at h
    split at h
    · rename_i e he
      simp only [Outcome.returned.injEq] at h
      subst h
      exact ⟨by simp, Or.inr (Or.inr (Or.inr (Or.inl ⟨_, e, he, rfl⟩)))⟩
    · simp only at h
      split at h
      · rename_i e he
        simp only [Outcome.returned.injEq] at h
        subst h
        exact ⟨by simp, Or.inr (Or.inr (Or.inr (Or.inr ⟨_, _, he⟩)))⟩
      · split at h
        · rename_i e he
          simp only [Outcome.returned.injEq] at h
          subst h
          exact ⟨by simp, Or.inr (Or.inr (Or.inl ⟨_, _, _, _, he⟩))⟩
        · exact ih _ _ h

theorem iteration_returned (q : Queue σ) (js : Json) (c : Caller η) (o : options)
    (w : World σ η) (err : GoError)
    (h : (iteration q js c o w).2 = Outcome.returned err) :
    err ≠ none ∧ ErrorSource q js c err := by
  unfold iteration at h
  split at h
  · rename_i e he
    simp only [Outcome.returned.injEq] at h
    subst h
    exact ⟨by simp, Or.inl ⟨_, he⟩⟩
  · simp only at h
    split at h
    · rename_i e he
      simp only [Outcome.returned.injEq] at h
      subst h
      exact ⟨by simp, Or.inr (Or.inl ⟨_, _, _, _, _, e, he, rfl⟩)⟩
    · split at h
      · rename_i w2 err2 hd
        simp only [Outcome.returned.injEq] at h
        subst h
        exact deliver_returned q js c _ _ _ (by rw [hd])
      · simp at h

theorem loop_returned (q : Queue σ) (js : Json) (c : Caller η) (o : options) :
    ∀ (fuel : Nat) (w : World σ η) (err : GoError),
      (loop q js c o fuel w).2 = Outcome.returned err → err ≠ none ∧ ErrorSource q js c err := by
  intro fuel
  induction fuel with
  | zero => intro w err h; simp [loop] at h
  | succ n ih =>
    intro w err h
    unfold loop at h
    split at h
    · exact ih _ _ h
    · rename_i w1 err1 hi
      simp only [Outcome.returned.injEq] at h
      subst h
      exact iteration_returned q js c o w _ (by rw [hi])

end Sources

/-! ## Dequeue returns only errors -/

section NeverNil

variable {σ η : Type}

theorem deliver_running (q : Queue σ) (js : Json) (c : Caller η)
    (hrem : ∀ s k m, (q.cl.ZRem s none k m).2 = none)
    (hctx : ∀ e, c.ctxErr e = none)
    (hh : ∀ e m, (c.handler e m).2 = none) :
    ∀ (el : List Tuple) (w : World σ η),
      (∀ x ∈ el, ∃ v, js.Unmarshal x.Member = Except.ok v) →
      (deliver q js c el w).2 = Outcome.running := by
  intro el
  induction el with
  | nil => intro w _; simp [deliver]
  | cons x el ih =>
    intro w hdec
    obtain ⟨v, hv⟩ := hdec x (List.mem_cons_self _ _)
    unfold deliver
    simp only [hv, hh, hctx, hrem]
    exact ih _ (fun y hy => hdec y (List.mem_cons_of_mem _ hy))

theorem iteration_running (q : Queue σ) (js : Json) (c : Caller η) (o : options)
    (hctx : ∀ e, c.ctxErr e = none)
    (hrange : ∀ s k lo hi, ∃ el, (q.cl.ZRangeByScore s none k lo hi).2 = Except.ok el ∧
      ∀ x ∈ el, ∃ v, js.Unmarshal x.Member = Except.ok v)
    (hrem : ∀ s k m, (q.cl.ZRem s none k m).2 = none)
    (hh : ∀ e m, (c.handler e m).2 = none) (w : World σ η) :
    (iteration q js c o w).2 = Outcome.running := by
  obtain ⟨el, hel, hdec⟩ := hrange w.store q.name 0 (float64 ((now w).Add o.PollPeriod).UnixNano)
  unfold iteration
  simp only [hctx, hel]
  split
  · rename_i w2 err hw
    have hd := congrArg Prod.snd hw
    rw [deliver_running q js c hrem hctx hh el _ hdec] at hd
    simp at hd
  · rfl

theorem loop_running (q : Queue σ) (js : Json) (c : Caller η) (o : options)
    (hctx : ∀ e, c.ctxErr e = none)
    (hrange : ∀ s k lo hi, ∃ el, (q.cl.ZRangeByScore s none k lo hi).2 = Except.ok el ∧
      ∀ x ∈ el, ∃ v, js.Unmarshal x.Member = Except.ok v)
    (hrem : ∀ s k m, (q.cl.ZRem s none k m).2 = none)
    (hh : ∀ e m, (c.handler e m).2 = none) :
    ∀ (fuel : Nat) (w : World σ η), (loop q js c o fuel w).2 = Outcome.running := by
  intro fuel
  induction fuel with
  | zero => intro w; rfl
  | succ n ih =>
    intro w
    have hi := iteration_running q js c o hctx hrange hrem hh w
    unfold loop
    split
    · exact ih _
    · rename_i w1 err hw
      rw [hw] at hi
      simp at hi

/-- C6. Whenever `Dequeue` returns, the error it returns is not nil, and it is the
error of the context, of the range query, of the removal, of the decoding of a
member or of the handler. With a context that is never cancelled, a store whose
range queries and removals, made with that context, always succeed, members that
all decode and a handler that always succeeds, `Dequeue` has not returned after any number of passes. -/
theorem Dequeue_returns_only_errors (q : Queue σ) (js : Json) (c : Caller η)
    (opts : List (options → options)) :
    (∀ (fuel : Nat) (w : World σ η) (err : GoError),
      (Dequeue q js c opts fuel w).2 = Outcome.returned err →
        err ≠ none ∧ ErrorSource q js c err) ∧
    ((∀ e, c.ctxErr e = none) →
      (∀ s k lo hi, ∃ el, (q.cl.ZRangeByScore s none k lo hi).2 = Except.ok el ∧
        ∀ x ∈ el, ∃ v, js.Unmarshal x.Member = Except.ok v) →
      (∀ s k m, (q.cl.ZRem s none k m).2 = none) →
      (∀ e m, (c.handler e m).2 = none) →
      ∀ (fuel : Nat) (w : World σ η), (Dequeue q js c opts fuel w).2 = Outcome.running) :=
  ⟨fun fuel w err h => loop_returned q js c (applyOpts opts) fuel w err h,
   fun hctx hrange hrem hh fuel w =>
     loop_running q js c (applyOpts opts) hctx hrange hrem hh fuel w⟩

theorem Dequeue_returns_only_errors_witness :
    (some EOF ≠ none ∧ ErrorSource testQueue plainJson (stopAfter 1 EOF) (some EOF)) ∧
    (Dequeue testQueue plainJson neverStop [] 3
      (addAll testQueue plainJson [makeMsg 0 1, makeMsg 0 0] (emptyWorld 0 0)).1).2
        = Outcome.running :=
  ⟨(Dequeue_returns_only_errors testQueue plainJson (stopAfter 1 EOF) []).1 1
      (addAll testQueue plainJson [makeMsg 0 0] (emptyWorld 0 0)).1 (some EOF) (by decide),
   (Dequeue_returns_only_errors testQueue plainJson neverStop []).2
      (fun _ => rfl) (fun _ _ _ _ => ⟨_, rfl, fun _ _ => ⟨_, rfl⟩⟩) (fun _ _ _ => rfl)
      (fun _ _ => rfl) 3 _⟩

end NeverNil

/-! ## Projections of the log -/

@[simp] theorem handled_append (l₁ l₂ : List Event) :
    handled (l₁ ++ l₂) = handled l₁ ++ handled l₂ := by
  induction l₁ with
  | nil => rfl
  | cons e l ih => cases e <;> simp [handled, ih]

@[simp] theorem removed_append (l₁ l₂ : List Event) :
    removed (l₁ ++ l₂) = removed l₁ ++ removed l₂ := by
  induction l₁ with
  | nil => rfl
  | cons e l ih => cases e <;> simp [removed, ih]

@[simp] theorem sleeps_append (l₁ l₂ : List Event) :
    sleeps (l₁ ++ l₂) = sleeps l₁ ++ sleeps l₂ := by
  induction l₁ with
  | nil => rfl
  | cons e l ih => cases e <;> simp [sleeps, ih]

@[simp] theorem sleeps_nil : sleeps [] = [] := rfl

@[simp] theorem sleeps_cons_sleep (t : Time) (d : Duration) (l : List Event) :
    sleeps (Event.sleep t d :: l) = d :: sleeps l := rfl

@[simp] theorem sleeps_cons_handle (t : Time) (m : Msg) (l : List Event) :
    sleeps (Event.handle t m :: l) = sleeps l := rfl

@[simp] theorem sleeps_cons_zrem (k : String) (b : Bytes) (l : List Event) :
    sleeps (Event.zrem k b :: l) = sleeps l := rfl

@[simp] theorem sleeps_cons_zrange (k : String) (lo hi : Float64) (el : List Tuple)
    (l : List Event) : sleeps (Event.zrange k lo hi el :: l) = sleeps l := rfl

/-! ## The wait for a deadline -/

section Wait

variable {σ η : Type}

@[simp] theorem wait_store (p : Prop) [Decidable p] (d : Duration) (w : World σ η) :
    (if p then sleep d w else w).store = w.store := by
  split <;> rfl

@[simp] theorem wait_env (p : Prop) [Decidable p] (d : Duration) (w : World σ η) :
    (if p then sleep d w else w).env = w.env := by
  split <;> rfl

@[simp] theorem wait_handled (p : Prop) [Decidable p] (d : Duration) (w : World σ η) :
    handled (if p then sleep d w else w).log = handled w.log := by
  split <;> simp [sleep, handled]

@[simp] theorem wait_removed (p : Prop) [Decidable p] (d : Duration) (w : World σ η) :
    removed (if p then sleep d w else w).log = removed w.log := by
  split <;> simp [sleep, removed]

end Wait

/-! ## Cancellation -/

section Cancellation

variable {σ η : Type}

theorem deliver_all (q : Queue σ) (js : Json) (c : Caller η)
    (hrem : ∀ s ctx k m, (q.cl.ZRem s ctx k m).2 = none)
    (hh : ∀ e m, (c.handler e m).2 = none) :
    ∀ (el : List Tuple) (w : World σ η),
      (∀ x ∈ el, ∃ v, js.Unmarshal x.Member = Except.ok v) →
      (deliver q js c el w).2 = Outcome.running ∧
      handled (deliver q js c el w).1.log = handled w.log ++ el.filterMap (decoded js) ∧
      removed (deliver q js c el w).1.log = removed w.log ++ el.map Tuple.Member ∧
      ((deliver q js c el w).1.store, (deliver q js c el w).1.env)
        = settle q js c el (w.store, w.env) := by
  intro el
  induction el with
  | nil => intro w _; simp [deliver, settle]
  | cons x el ih =>
    intro w hdec
    obtain ⟨v, hv⟩ := hdec x (List.mem_cons_self _ _)
    have ih' := fun w' => ih w' (fun y hy => hdec y (List.mem_cons_of_mem _ hy))
    have hm : decoded js x
        = some { ID := v.1, Data := v.2, Deadline := time_Unix 0 (int64 x.Score) } := by
      simp [decoded, hv]
    unfold deliver
    simp only [hv, hh, hrem]
    refine ⟨(ih' _).1, ?_, ?_, ?_⟩
    · rw [(ih' _).2.1]
      simp only [handled_append, wait_handled, handled, List.filterMap_cons, decoded, hv,
        List.append_nil, List.append_assoc, List.singleton_append]
    · rw [(ih' _).2.2.1]
      simp only [removed_append, wait_removed, removed, List.map_cons,
        List.append_nil, List.append_assoc, List.singleton_append]
    · rw [(ih' _).2.2.2]
      conv_rhs => unfold settle
      simp only [hm, wait_env, wait_store]

/-- C8, as amended. If the context is cancelled when a pass of `Dequeue` begins (in
particular when `Dequeue` is called), the pass returns the error of the context
and leaves the world as it was: the log gains no range query, no handler
invocation, no removal and no sleep, and the store is unchanged. `Dequeue` looks
at the context nowhere else: in a pass that begins with a live context and fetches
a batch whose members all decode, with a handler that succeeds and a store whose
removals succeed whatever the state of the context, every entry of the batch is
handed to the handler and removed, in order, the caller and the store ending in
the states that these invocations and removals lead to, and the pass reaches its
end, whatever the handler does to the context meanwhile. -/
theorem Dequeue_cancellation (q : Queue σ) (js : Json) (c : Caller η)
    (opts : List (options → options)) (w : World σ η) :
    (∀ e, c.ctxErr w.env = some e →
      iteration q js c (applyOpts opts) w = (w, Outcome.returned (some e)) ∧
      ∀ fuel, Dequeue q js c opts (fuel + 1) w = (w, Outcome.returned (some e))) ∧
    (∀ el, c.ctxErr w.env = none →
      (q.cl.ZRangeByScore w.store none q.name 0
        (float64 ((now w).Add (applyOpts opts).PollPeriod).UnixNano)).2 = Except.ok el →
      (∀ x ∈ el, ∃ v, js.Unmarshal x.Member = Except.ok v) →
      (∀ s ctx k m, (q.cl.ZRem s ctx k m).2 = none) →
      (∀ e m, (c.handler e m).2 = none) →
      (iteration q js c (applyOpts opts) w).2 = Outcome.running ∧
      handled (iteration q js c (applyOpts opts) w).1.log
        = handled w.log ++ el.filterMap (decoded js) ∧
      removed (iteration q js c (applyOpts opts) w).1.log
        = removed w.log ++ el.map Tuple.Member ∧
      ((iteration q js c (applyOpts opts) w).1.store,
        (iteration q js c (applyOpts opts) w).1.env)
        = settle q js c el
            ((q.cl.ZRangeByScore w.store none q.name 0
              (float64 ((now w).Add (applyOpts opts).PollPeriod).UnixNano)).1, w.env)) := by
  constructor
  · intro e he
    have hi : iteration q js c (applyOpts opts) w = (w, Outcome.returned (some e)) := by
      unfold iteration
      simp only [he]
    refine ⟨hi, fun fuel => ?_⟩
    unfold Dequeue loop
    simp only [hi]
  · intro el hctx hel hdec hrem hh
    have hd := deliver_all q js c hrem hh el
      { w with store := (q.cl.ZRangeByScore w.store none q.name 0
                  (float64 ((now w).Add (applyOpts opts).PollPeriod).UnixNano)).1,
               log := w.log ++ [Event.zrange q.name 0
                  (float64 ((now w).Add (applyOpts opts).PollPeriod).UnixNano) el] } hdec
    unfold iteration
    simp only [hctx, hel]
    split
    · rename_i w2 err hw
      rw [hw] at hd
      simp at hd
    · rename_i w2 hw
      rw [hw] at hd
      simpa [sleep, handled, removed] using hd.2

theorem Dequeue_cancellation_witness :
    (iteration testQueue plainJson cancelOnFirst (applyOpts [])
        (addAll testQueue plainJson
          [makeMsg 1700000000000000000 1, makeMsg 1700000000000000000 0]
          (emptyWorld 1700000000000000000 true)).1
      = ((addAll testQueue plainJson
          [makeMsg 1700000000000000000 1, makeMsg 1700000000000000000 0]
          (emptyWorld 1700000000000000000 true)).1,
          Outcome.returned (some "context canceled")) ∧
     Dequeue testQueue plainJson cancelOnFirst [] (2 + 1)
        (addAll testQueue plainJson
          [makeMsg 1700000000000000000 1, makeMsg 1700000000000000000 0]
          (emptyWorld 1700000000000000000 true)).1
      = ((addAll testQueue plainJson
          [makeMsg 1700000000000000000 1, makeMsg 1700000000000000000 0]
          (emptyWorld 1700000000000000000 true)).1,
          Outcome.returned (some "context canceled"))) ∧
    ((iteration testQueue plainJson cancelOnFirst (applyOpts [])
        (addAll testQueue plainJson
          [makeMsg 1700000000000000000 1, makeMsg 1700000000000000000 0]
          (emptyWorld 1700000000000000000 false)).1).2
      = Outcome.running ∧
     handled (iteration testQueue plainJson cancelOnFirst (applyOpts [])
        (addAll testQueue plainJson
          [makeMsg 1700000000000000000 1, makeMsg 1700000000000000000 0]
          (emptyWorld 1700000000000000000 false)).1).1.log
      = handled (addAll testQueue plainJson
          [makeMsg 1700000000000000000 1, makeMsg 1700000000000000000 0]
          (emptyWorld 1700000000000000000 false)).1.log
        ++ [{ Member := [48, 0, 48], Score := 1700000000000000000 },
            { Member := [49, 0, 49], Score := 1700000000200000000 }].filterMap
              (decoded plainJson) ∧
     removed (iteration testQueue plainJson cancelOnFirst (applyOpts [])
        (addAll testQueue plainJson
          [makeMsg 1700000000000000000 1, makeMsg 1700000000000000000 0]
          (emptyWorld 1700000000000000000 false)).1).1.log
      = removed (addAll testQueue plainJson
          [makeMsg 1700000000000000000 1, makeMsg 1700000000000000000 0]
          (emptyWorld 1700000000000000000 false)).1.log
        ++ [{ Member := [48, 0, 48], Score := 1700000000000000000 },
            { Member := [49, 0, 49], Score := 1700000000200000000 }].map Tuple.Member ∧
     ((iteration testQueue plainJson cancelOnFirst (applyOpts [])
        (addAll testQueue plainJson
          [makeMsg 1700000000000000000 1, makeMsg 1700000000000000000 0]
          (emptyWorld 1700000000000000000 false)).1).1.store,
      (iteration testQueue plainJson cancelOnFirst (applyOpts [])
        (addAll testQueue plainJson
          [makeMsg 1700000000000000000 1, makeMsg 1700000000000000000 0]
          (emptyWorld 1700000000000000000 false)).1).1.env)
      = settle testQueue plainJson cancelOnFirst
          [{ Member := [48, 0, 48], Score := 1700000000000000000 },
            { Member := [49, 0, 49], Score := 1700000000200000000 }]
          ((testQueue.cl.ZRangeByScore
            (addAll testQueue plainJson
              [makeMsg 1700000000000000000 1, makeMsg 1700000000000000000 0]
              (emptyWorld 1700000000000000000 false)).1.store none testQueue.name 0
            (float64 ((now (addAll testQueue plainJson
              [makeMsg 1700000000000000000 1, makeMsg 1700000000000000000 0]
              (emptyWorld 1700000000000000000 false)).1).Add
                (applyOpts []).PollPeriod).UnixNano)).1,
            (addAll testQueue plainJson
              [makeMsg 1700000000000000000 1, makeMsg 1700000000000000000 0]
              (emptyWorld 1700000000000000000 false)).1.env)) :=
  ⟨⟨((Dequeue_cancellation testQueue plainJson cancelOnFirst []
      (addAll testQueue plainJson
        [makeMsg 1700000000000000000 1, makeMsg 1700000000000000000 0]
        (emptyWorld 1700000000000000000 true)).1).1
      "context canceled" rfl).1,
    ((Dequeue_cancellation testQueue plainJson cancelOnFirst []
      (addAll testQueue plainJson
        [makeMsg 1700000000000000000 1, makeMsg 1700000000000000000 0]
        (emptyWorld 1700000000000000000 true)).1).1
      "context canceled" rfl).2 2⟩,
   (Dequeue_cancellation testQueue plainJson cancelOnFirst []
      (addAll testQueue plainJson
        [makeMsg 1700000000000000000 1, makeMsg 1700000000000000000 0]
        (emptyWorld 1700000000000000000 false)).1).2
      [{ Member := [48, 0, 48], Score := 1700000000000000000 },
        { Member := [49, 0, 49], Score := 1700000000200000000 }]
      rfl rfl (fun _ _ => ⟨_, rfl⟩) (fun _ _ _ _ => rfl) (fun _ _ => rfl)⟩

/-- C8 as stated does not hold. Over a client that honours the context it is
handed, a pass begins with a live context and fetches a batch of two entries, both
due. The handler cancels the context during the first delivery and returns nil;
the removal of the first entry, made with the cancelled context, fails; `Dequeue`
returns that error in the middle of the batch: the second entry is not handed to
the handler, and the store still holds both entries. -/
theorem Dequeue_cancellation_counterexample :
    cancelOnFirst.ctxErr
      (addAll (New (honouring memRedis) "delayq") plainJson
        [makeMsg 1700000000000000000 1, makeMsg 1700000000000000000 0]
        (emptyWorld 1700000000000000000 false)).1.env = none ∧
    (addAll (New (honouring memRedis) "delayq") plainJson
        [makeMsg 1700000000000000000 1, makeMsg 1700000000000000000 0]
        (emptyWorld 1700000000000000000 false)).2 = [none, none] ∧
    (Dequeue (New (honouring memRedis) "delayq") plainJson cancelOnFirst [] 1
      (addAll (New (honouring memRedis) "delayq") plainJson
        [makeMsg 1700000000000000000 1, makeMsg 1700000000000000000 0]
        (emptyWorld 1700000000000000000 false)).1).2
      = Outcome.returned (some "context canceled") ∧
    (Dequeue (New (honouring memRedis) "delayq") plainJson cancelOnFirst [] 1
      (addAll (New (honouring memRedis) "delayq") plainJson
        [makeMsg 1700000000000000000 1, makeMsg 1700000000000000000 0]
        (emptyWorld 1700000000000000000 false)).1).1.log
      = (addAll (New (honouring memRedis) "delayq") plainJson
          [makeMsg 1700000000000000000 1, makeMsg 1700000000000000000 0]
          (emptyWorld 1700000000000000000 false)).1.log ++
        [Event.zrange "delayq" 0 1700000001000000000
            [{ Member := [48, 0, 48], Score := 1700000000000000000 },
              { Member := [49, 0, 49], Score := 1700000000200000000 }],
          Event.handle 1700000000000000000 (makeMsg 1700000000000000000 0),
          Event.zrem "delayq" [48, 0, 48]] ∧
    (Dequeue (New (honouring memRedis) "delayq") plainJson cancelOnFirst [] 1
      (addAll (New (honouring memRedis) "delayq") plainJson
        [makeMsg 1700000000000000000 1, makeMsg 1700000000000000000 0]
        (emptyWorld 1700000000000000000 false)).1).1.store
      = [{ key := "delayq", member := [49, 0, 49], score := 1700000000200000000 },
          { key := "delayq", member := [48, 0, 48], score := 1700000000000000000 }] := by
  decide

end Cancellation

/-! ## dqradix: the pairing of a reply -/

namespace Dqradix

theorem pairLoop_eq_pairs (pf : Bytes → Except Error Float64) :
    ∀ (n : Nat) (res : List Bytes) (i : Nat) (tuple : Tuple) (tuples : List Tuple),
      res.length = 2 * n → i % 2 = 0 →
      pairLoop pf res i tuple tuples =
        match pairs pf res with
        | Except.error e => ([], some e)
        | Except.ok l => (tuples ++ l, none) := by
  intro n
  induction n with
  | zero =>
    intro res i tuple tuples hlen _
    have : res = [] := List.length_eq_zero.mp (by simpa using hlen)
    subst this
    simp [pairLoop, pairs]
  | succ n ih =>
    intro res i tuple tuples hlen hi
    match res, hlen with
    | member :: score :: rest, hlen =>
      have hrest : rest.length = 2 * n := by simp at hlen; omega
      have hi1 : (i + 1) % 2 ≠ 0 := by omega
      have hi2 : (i + 1 + 1) % 2 = 0 := by omega
      rw [pairLoop, if_pos hi, pairLoop, if_neg hi1, pairs]
      cases hp : pf score with
      | error e => rfl
      | ok f =>
        simp only
        rw [ih rest (i + 1 + 1) _ _ hrest hi2]
        cases pairs pf rest with
        | error e => rfl
        | ok l => simp

theorem pairs_error (pf : Bytes → Except Error Float64) :
    ∀ (n : Nat) (res : List Bytes), res.length = 2 * n →
      (∃ i b e, i % 2 = 1 ∧ res[i]? = some b ∧ pf b = Except.error e) →
      ∃ e, pairs pf res = Except.error e := by
  intro n
  induction n with
  | zero =>
    intro res hlen h
    have : res = [] := List.length_eq_zero.mp (by simpa using hlen)
    subst this
    obtain ⟨i, b, e, _, hb, _⟩ := h
    simp at hb
  | succ n ih =>
    intro res hlen h
    match res, hlen with
    | member :: score :: rest, hlen =>
      have hrest : rest.length = 2 * n := by simp at hlen; omega
      obtain ⟨i, b, e, hi, hb, he⟩ := h
      rw [pairs]
      cases hp : pf score with
      | error e1 => exact ⟨e1, rfl⟩
      | ok f =>
        simp only
        have hi2 : ∃ j, i = j + 2 := by
          match i, hi, hb with
          | 0, hi, _ => simp at hi
          | 1, _, hb =>
            simp at hb
            subst hb
            rw [hp] at he
            cases he
          | j + 2, _, _ => exact ⟨j, rfl⟩
        obtain ⟨j, rfl⟩ := hi2
        have hj : rest[j]? = some b := by simpa using hb
        obtain ⟨e2, he2⟩ := ih rest hrest ⟨j, b, e, by omega, hj, he⟩
        rw [he2]
        exact ⟨e2, rfl⟩

theorem pairs_ok (pf : Bytes → Except Error Float64) :
    ∀ (n : Nat) (res : List Bytes), res.length = 2 * n →
      (∀ i b, i % 2 = 1 → res[i]? = some b → ∃ f, pf b = Except.ok f) →
      ∃ l, pairs pf res = Except.ok l ∧ l.length = n ∧
        ∀ i, i < n → ∃ member score f, res[2 * i]? = some member ∧
          res[2 * i + 1]? = some score ∧ pf score = Except.ok f ∧
          l[i]? = some { Member := member, Score := f } := by
  intro n
  induction n with
  | zero =>
    intro res hlen _
    have : res = [] := List.length_eq_zero.mp (by simpa using hlen)
    subst this
    exact ⟨[], rfl, rfl, fun i hi => absurd hi (Nat.not_lt_zero i)⟩
  | succ n ih =>
    intro res hlen h
    match res, hlen with
    | member :: score :: rest, hlen =>
      have hrest : rest.length = 2 * n := by simp at hlen; omega
      obtain ⟨f, hf⟩ := h 1 score (by decide) (by simp)
      obtain ⟨l, hl, hlen', hidx⟩ := ih rest hrest (fun i b hi hb =>
        h (i + 2) b (by omega) (by simpa using hb))
      refine ⟨{ Member := member, Score := f } :: l, ?_, by simp [hlen'], ?_⟩
      · rw [pairs, hf]
        simp only
        rw [hl]
      · intro i hi
        match i, hi with
        | 0, _ => exact ⟨member, score, f, by simp, by simp, hf, by simp⟩
        | j + 1, hj =>
          obtain ⟨m', s', f', h1, h2, h3, h4⟩ := hidx j (by omega)
          refine ⟨m', s', f', ?_, ?_, h3, by simpa using h4⟩
          · have : 2 * (j + 1) = 2 * j + 1 + 1 := by omega
            rw [this]
            simpa using h1
          · have : 2 * (j + 1) + 1 = 2 * j + 1 + 1 + 1 := by omega
            rw [this]
            simpa using h2

/-- C10. For a flat reply `r`, `Client.ZRangeByScore` returns an error and no
tuples when the length of `r` is odd or an element at an odd index does not parse;
otherwise, `r` having `2 * n` elements, it returns no error and exactly `n` tuples,
the `i`-th made of the member `r[2i]` and the parsed value of `r[2i+1]`, so that a
reply ascending by score gives a result ascending by score; an empty reply gives
an empty result. -/
theorem ZRangeByScore_pairs_reply (pf : Bytes → Except Error Float64) (r : List Bytes) :
    ((r.length % 2 ≠ 0 ∨ ∃ i b e, i % 2 = 1 ∧ r[i]? = some b ∧ pf b = Except.error e) →
      ∃ e, ZRangeByScore pf (Except.ok r) = ([], some e)) ∧
    (∀ n, r.length = 2 * n →
      (∀ i b, i % 2 = 1 → r[i]? = some b → ∃ f, pf b = Except.ok f) →
      ∃ tuples, ZRangeByScore pf (Except.ok r) = (tuples, none) ∧ tuples.length = n ∧
        (∀ i, i < n → ∃ member score f, r[2 * i]? = some member ∧
          r[2 * i + 1]? = some score ∧ pf score = Except.ok f ∧
          tuples[i]? = some { Member := member, Score := f }) ∧
        ((∀ i j si sj fi fj, i ≤ j → r[2 * i + 1]? = some si → r[2 * j + 1]? = some sj →
            pf si = Except.ok fi → pf sj = Except.ok fj → fi ≤ fj) →
          ∀ (i j : Nat) (a b : Tuple), i ≤ j → tuples[i]? = some a → tuples[j]? = some b →
            a.Score ≤ b.Score)) ∧
    ZRangeByScore pf (Except.ok []) = ([], none) := by
  refine ⟨?_, ?_, ?_⟩
  · intro h
    by_cases hodd : r.length % 2 ≠ 0
    · exact ⟨"unexpeted number of results", by simp only [ZRangeByScore, if_pos hodd]⟩
    · have hlen : r.length = 2 * (r.length / 2) := by omega
      rcases h with h | h
      · exact absurd h hodd
      · obtain ⟨e, he⟩ := pairs_error pf _ r hlen h
        refine ⟨e, ?_⟩
        simp only [ZRangeByScore, if_neg hodd]
        rw [pairLoop_eq_pairs pf _ r 0 _ _ hlen rfl, he]
  · intro n hlen hall
    obtain ⟨l, hl, hn, hidx⟩ := pairs_ok pf n r hlen hall
    have heven : ¬ r.length % 2 ≠ 0 := by omega
    refine ⟨l, ?_, hn, hidx, ?_⟩
    · simp only [ZRangeByScore, if_neg heven]
      rw [pairLoop_eq_pairs pf n r 0 _ _ hlen rfl, hl]
      rfl
    · intro hasc i j a b hij ha hb
      have hi : i < n := by
        rw [← hn]
        exact (List.getElem?_eq_some.mp ha).1
      have hj : j < n := by
        rw [← hn]
        exact (List.getElem?_eq_some.mp hb).1
      obtain ⟨mi, si, fi, _, h2, h3, h4⟩ := hidx i hi
      obtain ⟨mj, sj, fj, _, h2', h3', h4'⟩ := hidx j hj
      rw [ha] at h4
      rw [hb] at h4'
      cases h4
      cases h4'
      exact hasc i j si sj fi fj hij h2 h2' h3 h3'
  · rfl

theorem ZRangeByScore_pairs_reply_witness :
    (∃ e, ZRangeByScore parseDecimal (Except.ok [[109], [49], [110], [120]]) = ([], some e)) ∧
    (∃ tuples, ZRangeByScore parseDecimal (Except.ok [[109], [49], [110], [50]]) = (tuples, none) ∧
      tuples.length = 2 ∧
      (∀ i, i < 2 → ∃ member score f, [[109], [49], [110], [50]][2 * i]? = some member ∧
        ([[109], [49], [110], [50]] : List Bytes)[2 * i + 1]? = some score ∧
        parseDecimal score = Except.ok f ∧
        tuples[i]? = some { Member := member, Score := f }) ∧
      ((∀ i j si sj fi fj, i ≤ j →
          ([[109], [49], [110], [50]] : List Bytes)[2 * i + 1]? = some si →
          ([[109], [49], [110], [50]] : List Bytes)[2 * j + 1]? = some sj →
          parseDecimal si = Except.ok fi → parseDecimal sj = Except.ok fj → fi ≤ fj) →
        ∀ (i j : Nat) (a b : Tuple), i ≤ j → tuples[i]? = some a → tuples[j]? = some b →
          a.Score ≤ b.Score)) :=
  ⟨(ZRangeByScore_pairs_reply parseDecimal [[109], [49], [110], [120]]).1
      (Or.inr ⟨3, [120], "invalid syntax", rfl, rfl, rfl⟩),
   (ZRangeByScore_pairs_reply parseDecimal [[109], [49], [110], [50]]).2.1 2 rfl
      (fun i b hi hb => by
        rcases i with _ | _ | _ | _ | i
        · simp at hi
        · simp at hb; subst hb; exact ⟨1, rfl⟩
        · simp at hi
        · simp at hb; subst hb; exact ⟨2, rfl⟩
        · simp at hb)⟩

end Dqradix

/-! ## Admission -/

section Admission

variable {σ η : Type}

theorem AddMsg_log (q : Queue σ) (js : Json) (ctx : GoError) (m : Msg) (w : World σ η)
    (b : Bytes) (hb : js.Marshal m.ID m.Data = Except.ok b) :
    (AddMsg q js ctx m w).1.log =
      w.log ++ [Event.zaddnx q.name (float64 m.Deadline.UnixNano) b] := by
  unfold AddMsg
  simp only [hb]
  split
  · rfl
  · split <;> rfl

theorem AddMsg_nil_iff (q : Queue σ) (js : Json) (ctx : GoError) (m : Msg) (w : World σ η) :
    (AddMsg q js ctx m w).2 = none ↔
      ∃ b count, js.Marshal m.ID m.Data = Except.ok b ∧
        (q.cl.ZAddNX w.store ctx q.name (float64 m.Deadline.UnixNano) b).2 = Except.ok count ∧
        count ≠ 0 := by
  unfold AddMsg
  cases hb : js.Marshal m.ID m.Data with
  | error e => simp
  | ok b =>
    simp only
    cases hr : (q.cl.ZAddNX w.store ctx q.name (float64 m.Deadline.UnixNano) b).2 with
    | error e =>
      simp [hr]
    | ok count =>
      by_cases hc : count = 0
      · simp [hr, hc]
      · simp [hr, hc]

theorem AddMsg_store_error (q : Queue σ) (js : Json) (ctx : GoError) (m : Msg)
    (w : World σ η) (b : Bytes)
    (e : Error) (hb : js.Marshal m.ID m.Data = Except.ok b)
    (he : (q.cl.ZAddNX w.store ctx q.name (float64 m.Deadline.UnixNano) b).2 = Except.error e) :
    (AddMsg q js ctx m w).2 = some e := by
  unfold AddMsg
  simp only [hb, he]

theorem AddMsg_memRedis (name : String) (js : Json) (ctx : GoError) (m : Msg)
    (w : World Store η) (b : Bytes)
    (hb : js.Marshal m.ID m.Data = Except.ok b) :
    AddMsg (New memRedis name) js ctx m w =
      if w.store.any (Entry.isAt name b) = true then
        ({ w with log := w.log ++ [Event.zaddnx name (float64 m.Deadline.UnixNano) b] },
          some ErrExists)
      else
        ({ w with store := w.store ++
                    [{ key := name, member := b, score := float64 m.Deadline.UnixNano }],
                  log := w.log ++ [Event.zaddnx name (float64 m.Deadline.UnixNano) b] },
          none) := by
  unfold AddMsg
  simp only [hb, New, memRedis]
  by_cases h : w.store.any (Entry.isAt name b) = true
  · simp [h]
  · simp [h]

/-- C4. The member that `AddMsg` sends to the store is the encoding of the ID and
the data, whatever the deadline. Over the insert-if-absent store, once a message is
admitted, `AddMsg` of a message with the same ID and data and any deadline returns
`ErrExists` and leaves the store as it was, the entry keeping the score of the
first deadline, which is `float64` of its `UnixNano`. `AddMsg` returns nil exactly when the store reports no error and a
count other than zero, and returns the error of the store when the store fails.
The second admission is refused in any later world as well, as long as the member
is in the queue. -/
theorem AddMsg_duplicate (js : Json) (q : Queue σ) (name : String) (m m' : Msg)
    (ctx ctx' : GoError)
    (w w' : World σ η) (v : World Store η) (hid : m'.ID = m.ID) (hdata : m'.Data = m.Data) :
    (∀ b, js.Marshal m.ID m.Data = Except.ok b →
      (AddMsg q js ctx m w).1.log =
        w.log ++ [Event.zaddnx q.name (float64 m.Deadline.UnixNano) b] ∧
      (AddMsg q js ctx' m' w').1.log =
        w'.log ++ [Event.zaddnx q.name (float64 m'.Deadline.UnixNano) b]) ∧
    ((AddMsg (New memRedis name) js ctx m v).2 = none →
      (AddMsg (New memRedis name) js ctx' m' (AddMsg (New memRedis name) js ctx m v).1).2
        = some ErrExists ∧
      (AddMsg (New memRedis name) js ctx' m' (AddMsg (New memRedis name) js ctx m v).1).1.store
        = (AddMsg (New memRedis name) js ctx m v).1.store ∧
      ∃ b, js.Marshal m.ID m.Data = Except.ok b ∧
        { key := name, member := b, score := float64 m.Deadline.UnixNano }
          ∈ (AddMsg (New memRedis name) js ctx m v).1.store ∧
        ∀ e ∈ (AddMsg (New memRedis name) js ctx m v).1.store,
          e.key = name → e.member = b → e.score = float64 m.Deadline.UnixNano) ∧
    ((AddMsg q js ctx m w).2 = none ↔
      ∃ b count, js.Marshal m.ID m.Data = Except.ok b ∧
        (q.cl.ZAddNX w.store ctx q.name (float64 m.Deadline.UnixNano) b).2 = Except.ok count ∧
        count ≠ 0) ∧
    (∀ b e, js.Marshal m.ID m.Data = Except.ok b →
      (q.cl.ZAddNX w.store ctx q.name (float64 m.Deadline.UnixNano) b).2 = Except.error e →
      (AddMsg q js ctx m w).2 = some e) ∧
    (∀ (u : World Store η) (b : Bytes), js.Marshal m.ID m.Data = Except.ok b →
      (∃ e ∈ u.store, e.key = name ∧ e.member = b) →
      (AddMsg (New memRedis name) js ctx' m' u).2 = some ErrExists ∧
      (AddMsg (New memRedis name) js ctx' m' u).1.store = u.store) := by
  refine ⟨?_, ?_, AddMsg_nil_iff q js ctx m w,
    fun b e hb he => AddMsg_store_error q js ctx m w b e hb he, ?_⟩
  case refine_3 =>
    intro u b hb ⟨e, he, hk, hm⟩
    have hb' : js.Marshal m'.ID m'.Data = Except.ok b := by rw [hid, hdata]; exact hb
    have hany : u.store.any (Entry.isAt name b) = true := by
      rw [List.any_eq_true]
      exact ⟨e, he, by simp [Entry.isAt, hk, hm]⟩
    rw [AddMsg_memRedis name js ctx' m' u b hb', if_pos hany]
    exact ⟨rfl, rfl⟩
  · intro b hb
    exact ⟨AddMsg_log q js ctx m w b hb,
      AddMsg_log q js ctx' m' w' b (by rw [hid, hdata]; exact hb)⟩
  · intro hnil
    obtain ⟨b, _, hb, _, _⟩ := (AddMsg_nil_iff (New memRedis name) js ctx m v).mp hnil
    have hb' : js.Marshal m'.ID m'.Data = Except.ok b := by rw [hid, hdata]; exact hb
    have h1 := AddMsg_memRedis name js ctx m v b hb
    by_cases hany : v.store.any (Entry.isAt name b) = true
    · rw [h1, if_pos hany] at hnil
      simp at hnil
    · rw [if_neg hany] at h1
      have hany1 : (v.store ++
          [({ key := name, member := b, score := float64 m.Deadline.UnixNano } : Entry)]).any
          (Entry.isAt name b) = true := by
        simp [Entry.isAt]
      rw [h1, AddMsg_memRedis name js ctx' m' _ b hb']
      rw [if_pos hany1]
      refine ⟨rfl, rfl, b, hb, by simp, ?_⟩
      intro e he hk hm
      rcases List.mem_append.mp he with he | he
      · exfalso
        apply hany
        rw [List.any_eq_true]
        exact ⟨e, he, by simp [Entry.isAt, hk, hm]⟩
      · simp at he
        subst he
        rfl

theorem AddMsg_duplicate_witness :
    ((AddMsg testQueue plainJson none (makeMsg 1700000000000000000 3) (emptyWorld 0 0)).1.log
        = (emptyWorld 0 0).log ++
          [Event.zaddnx testQueue.name
            (float64 (makeMsg 1700000000000000000 3).Deadline.UnixNano) [51, 0, 51]] ∧
      (AddMsg testQueue plainJson none
          { makeMsg 1700000000000000000 3 with Deadline := 1700000000000000200 }
          (emptyWorld 9 0)).1.log
        = (emptyWorld 9 0).log ++
          [Event.zaddnx testQueue.name
            (float64 (Time.UnixNano (1700000000000000200 : Time))) [51, 0, 51]]) ∧
    ((AddMsg (New memRedis "delayq") plainJson none
        { makeMsg 1700000000000000000 3 with Deadline := 1700000000000000200 }
        (AddMsg (New memRedis "delayq") plainJson none (makeMsg 1700000000000000000 3)
          (emptyWorld 1 0)).1).2
        = some ErrExists ∧
      (AddMsg (New memRedis "delayq") plainJson none
        { makeMsg 1700000000000000000 3 with Deadline := 1700000000000000200 }
        (AddMsg (New memRedis "delayq") plainJson none (makeMsg 1700000000000000000 3)
          (emptyWorld 1 0)).1).1.store
        = (AddMsg (New memRedis "delayq") plainJson none (makeMsg 1700000000000000000 3)
            (emptyWorld 1 0)).1.store ∧
      ∃ b, plainJson.Marshal (makeMsg 1700000000000000000 3).ID
            (makeMsg 1700000000000000000 3).Data = Except.ok b ∧
        { key := "delayq", member := b,
          score := float64 (makeMsg 1700000000000000000 3).Deadline.UnixNano }
          ∈ (AddMsg (New memRedis "delayq") plainJson none (makeMsg 1700000000000000000 3)
              (emptyWorld 1 0)).1.store ∧
        ∀ e ∈ (AddMsg (New memRedis "delayq") plainJson none (makeMsg 1700000000000000000 3)
              (emptyWorld 1 0)).1.store,
          e.key = "delayq" → e.member = b →
            e.score = float64 (makeMsg 1700000000000000000 3).Deadline.UnixNano) :=
  ⟨(AddMsg_duplicate plainJson testQueue "delayq" (makeMsg 1700000000000000000 3)
      { makeMsg 1700000000000000000 3 with Deadline := 1700000000000000200 } none none
      (emptyWorld 0 0) (emptyWorld 9 0) (emptyWorld 1 0) rfl rfl).1 [51, 0, 51] rfl,
   (AddMsg_duplicate plainJson testQueue "delayq" (makeMsg 1700000000000000000 3)
      { makeMsg 1700000000000000000 3 with Deadline := 1700000000000000200 } none none
      (emptyWorld 0 0) (emptyWorld 9 0) (emptyWorld 1 0) rfl rfl).2.1 rfl⟩

end Admission

/-! ## The model store -/

section ModelStore

theorem memRedis_range_mem (s : Store) (ctx : GoError) (key : String) (lo hi : Float64) (el : List Tuple)
    (h : (memRedis.ZRangeByScore s ctx key lo hi).2 = Except.ok el) (x : Tuple) :
    x ∈ el ↔ ∃ e ∈ s, e.key = key ∧ lo ≤ e.score ∧ e.score ≤ hi ∧ e.tuple = x := by
  simp only [memRedis, Except.ok.injEq] at h
  subst h
  rw [(List.perm_insertionSort tupleLE _).mem_iff]
  simp only [List.mem_map, List.mem_filter, Entry.inRange, Bool.and_eq_true, decide_eq_true_eq]
  constructor
  · rintro ⟨e, ⟨he, hk, hlo, hhi⟩, rfl⟩
    exact ⟨e, he, hk, hlo, hhi, rfl⟩
  · rintro ⟨e, he, hk, hlo, hhi, rfl⟩
    exact ⟨e, ⟨he, hk, hlo, hhi⟩, rfl⟩

theorem memRedis_range_le (s : Store) (ctx : GoError) (key : String) (lo hi : Float64) (el : List Tuple)
    (h : (memRedis.ZRangeByScore s ctx key lo hi).2 = Except.ok el) :
    ∀ x ∈ el, x.Score ≤ hi := by
  intro x hx
  obtain ⟨e, _, _, _, hhi, rfl⟩ := (memRedis_range_mem s ctx key lo hi el h x).mp hx
  exact hhi

end ModelStore

/-! ## Polling cadence -/

section Cadence

variable {σ η : Type}

theorem Continues.refl (w : World σ η) : Continues w w :=
  ⟨[], by simp, by simp [sleeps], by simp [sleeps]⟩

theorem Continues.trans {w₁ w₂ w₃ : World σ η}
    (h₁ : Continues w₁ w₂) (h₂ : Continues w₂ w₃) : Continues w₁ w₃ := by
  obtain ⟨e₁, hl₁, hs₁, hc₁⟩ := h₁
  obtain ⟨e₂, hl₂, hs₂, hc₂⟩ := h₂
  refine ⟨e₁ ++ e₂, by rw [hl₂, hl₁, List.append_assoc], ?_, ?_⟩
  · intro d hd
    rw [sleeps_append] at hd
    rcases List.mem_append.mp hd with hd | hd
    · exact hs₁ d hd
    · exact hs₂ d hd
  · rw [hc₂, hc₁, sleeps_append, List.sum_append, Int.add_assoc]

theorem Continues.wait (w : World σ η) (D : Time) :
    Continues w (if D.After (now w) = true then sleep (D.Sub (now w)) w else w) := by
  by_cases h : D.After (now w) = true
  · rw [if_pos h]
    have hlt : w.clock < D := by simpa [now] using h
    refine ⟨[Event.sleep w.clock (D.Sub (now w))], rfl, ?_, ?_⟩
    · intro d hd
      simp only [sleeps, now, Time.Sub, List.mem_singleton] at hd
      subst hd
      exact Int.sub_pos_of_lt hlt
    · simp [sleep, sleeps]
  · rw [if_neg h]
    exact Continues.refl w

theorem Continues.note (w w' : World σ η) (ev : Event)
    (hc : w'.clock = w.clock) (hl : w'.log = w.log ++ [ev])
    (hev : ∀ t d, ev ≠ Event.sleep t d) : Continues w w' := by
  refine ⟨[ev], hl, ?_, ?_⟩
  · cases ev <;> simp [sleeps] at hev ⊢
  · rw [hc]
    cases ev <;> simp [sleeps] at hev ⊢

theorem deliver_continues (q : Queue σ) (js : Json) (c : Caller η) :
    ∀ (el : List Tuple) (w : World σ η), Continues w (deliver q js c el w).1 := by
  intro el
  induction el with
  | nil => intro w; exact Continues.refl w
  | cons x el ih =>
    intro w
    unfold deliver
    split
    · exact Continues.refl w
    · simp only
      have h1 := Continues.wait w (time_Unix 0 (int64 x.Score))
      generalize (if (time_Unix 0 (int64 x.Score)).After (now w) = true
        then sleep ((time_Unix 0 (int64 x.Score)).Sub (now w)) w else w) = w1 at h1 ⊢
      split
      · exact h1.trans (Continues.note _ _ _ rfl rfl (by simp))
      · rename_i id data _ _ _
        have h2 : Continues w1
            { w1 with
              env := (c.handler w1.env
                { ID := id, Data := data, Deadline := time_Unix 0 (int64 x.Score) }).1,
              log := w1.log ++ [Event.handle w1.clock
                { ID := id, Data := data, Deadline := time_Unix 0 (int64 x.Score) }] } :=
          Continues.note _ _ (Event.handle w1.clock _) rfl rfl (by simp)
        have h3 : Continues w1
            { w1 with
              store := (q.cl.ZRem w1.store
                (c.ctxErr (c.handler w1.env
                  { ID := id, Data := data, Deadline := time_Unix 0 (int64 x.Score) }).1)
                q.name x.Member).1,
              env := (c.handler w1.env
                { ID := id, Data := data, Deadline := time_Unix 0 (int64 x.Score) }).1,
              log := w1.log ++ [Event.handle w1.clock
                { ID := id, Data := data, Deadline := time_Unix 0 (int64 x.Score) }]
                ++ [Event.zrem q.name x.Member] } :=
          h2.trans (Continues.note _ _ (Event.zrem q.name x.Member) rfl rfl (by simp))
        split
        · exact h1.trans h3
        · exact h1.trans (h3.trans (ih _))

theorem wait_clock_le (w : World σ η) (D B : Time) (hD : D ≤ B) (hw : w.clock ≤ B) :
    (if D.After (now w) = true then sleep (D.Sub (now w)) w else w).clock ≤ B := by
  split
  · simp only [sleep, now, Time.Add, Time.Sub]
    linarith
  · exact hw

/-- The batch loop does not take the clock past a bound that no score of the batch
exceeds. -/
theorem deliver_clock_le (q : Queue σ) (js : Json) (c : Caller η) (B : Time) :
    ∀ (el : List Tuple) (w : World σ η), (∀ x ∈ el, x.Score ≤ B) → w.clock ≤ B →
      (deliver q js c el w).1.clock ≤ B := by
  intro el
  induction el with
  | nil => intro w _ hw; exact hw
  | cons x el ih =>
    intro w hB hw
    have hx : time_Unix 0 (int64 x.Score) ≤ B := by
      simpa using hB x (List.mem_cons_self _ _)
    have h1 := wait_clock_le w _ B hx hw
    unfold deliver
    split
    · exact hw
    · simp only
      generalize (if (time_Unix 0 (int64 x.Score)).After (now w) = true
        then sleep ((time_Unix 0 (int64 x.Score)).Sub (now w)) w else w) = w1 at h1 ⊢
      split
      · exact h1
      · split
        · exact h1
        · exact ih _ (fun y hy => hB y (List.mem_cons_of_mem _ hy)) h1

/-- C9, as amended. Under the virtual clock, in a pass of `Dequeue` that reaches
its end, the sleeps requested are the waits for the deadlines, each of them
positive, and then the final wait, which is the poll period less those waits: the
sleeps of the pass add up to the poll period exactly, so the clock at the end of
the pass is `nextPoll`, the time at the start of the pass plus the poll period.
When the poll period is not negative and no entry of the batch fetched has a score
after `nextPoll`, the final wait, and so every sleep requested, is non-negative. -/
theorem Dequeue_polling_cadence (q : Queue σ) (js : Json) (c : Caller η)
    (opts : List (options → options)) (w : World σ η)
    (hend : (iteration q js c (applyOpts opts) w).2 = Outcome.running) :
    ∃ el evs waits,
      (q.cl.ZRangeByScore w.store (c.ctxErr w.env) q.name 0
        (float64 ((now w).Add (applyOpts opts).PollPeriod).UnixNano)).2 = Except.ok el ∧
      (iteration q js c (applyOpts opts) w).1.log = w.log ++ evs ∧
      sleeps evs = waits ++ [(applyOpts opts).PollPeriod - waits.sum] ∧
      (∀ d ∈ waits, 0 < d) ∧
      (sleeps evs).sum = (applyOpts opts).PollPeriod ∧
      (iteration q js c (applyOpts opts) w).1.clock
        = (now w).Add (applyOpts opts).PollPeriod ∧
      (0 ≤ (applyOpts opts).PollPeriod →
        (∀ x ∈ el, x.Score ≤ (now w).Add (applyOpts opts).PollPeriod) →
        ∀ d ∈ sleeps evs, 0 ≤ d) := by
  unfold iteration at hend ⊢
  split at hend
  · simp at hend
  · simp only at hend ⊢
    split at hend
    · simp at hend
    · rename_i el hel
      have hcont := deliver_continues q js c el
        { w with store := (q.cl.ZRangeByScore w.store (c.ctxErr w.env) q.name 0
                    (float64 ((now w).Add (applyOpts opts).PollPeriod).UnixNano)).1,
                 log := w.log ++ [Event.zrange q.name 0
                    (float64 ((now w).Add (applyOpts opts).PollPeriod).UnixNano) el] }
      have hle := deliver_clock_le q js c ((now w).Add (applyOpts opts).PollPeriod) el
        { w with store := (q.cl.ZRangeByScore w.store (c.ctxErr w.env) q.name 0
                    (float64 ((now w).Add (applyOpts opts).PollPeriod).UnixNano)).1,
                 log := w.log ++ [Event.zrange q.name 0
                    (float64 ((now w).Add (applyOpts opts).PollPeriod).UnixNano) el] }
      split at hend
      · simp at hend
      · rename_i w2 hw2
        simp only [hw2] at hcont hle ⊢
        obtain ⟨evs, hlog, hpos, hclock⟩ := hcont
        simp only at hlog hclock
        have hfinal : ((now w).Add (applyOpts opts).PollPeriod).Sub (now w2)
            = (applyOpts opts).PollPeriod - (sleeps evs).sum := by
          simp only [now, Time.Add, Time.Sub, hclock]
          ring
        refine ⟨el, Event.zrange q.name 0
            (float64 ((now w).Add (applyOpts opts).PollPeriod).UnixNano) el :: (evs
            ++ [Event.sleep w2.clock (((now w).Add (applyOpts opts).PollPeriod).Sub (now w2))]),
          sleeps evs, hel, ?_, ?_, hpos, ?_, ?_, ?_⟩
        · simp [sleep, hlog]
        · simp only [sleeps_cons_zrange, sleeps_append, sleeps_cons_sleep, sleeps_nil, hfinal]
        · simp only [sleeps_cons_zrange, sleeps_append, sleeps_cons_sleep, sleeps_nil,
            List.sum_append, List.sum_singleton, hfinal]
          ring
        · simp only [sleep, now, Time.Add, Time.Sub]
          ring
        · intro hp hsc d hd
          simp only [sleeps_cons_zrange, sleeps_append, sleeps_cons_sleep, sleeps_nil,
            List.mem_append, List.mem_singleton] at hd
          rcases hd with hd | hd
          · exact le_of_lt (hpos d hd)
          · subst hd
            have h2 : w2.clock ≤ (now w).Add (applyOpts opts).PollPeriod :=
              hle hsc (by simp only [now, Time.Add]; linarith)
            simp only [now, Time.Add, Time.Sub] at h2 ⊢
            linarith

theorem Dequeue_polling_cadence_witness :
    ∃ el evs waits,
      (testQueue.cl.ZRangeByScore
        (addAll testQueue plainJson
          [makeMsg 1700000000000000000 6, makeMsg 1700000000000000000 2,
            makeMsg 1700000000000000000 1] (emptyWorld 1700000000000000000 0)).1.store
        (neverStop.ctxErr (addAll testQueue plainJson
          [makeMsg 1700000000000000000 6, makeMsg 1700000000000000000 2,
            makeMsg 1700000000000000000 1] (emptyWorld 1700000000000000000 0)).1.env)
        testQueue.name 0
        (float64 ((now (addAll testQueue plainJson
          [makeMsg 1700000000000000000 6, makeMsg 1700000000000000000 2,
            makeMsg 1700000000000000000 1]
          (emptyWorld 1700000000000000000 0)).1).Add (applyOpts []).PollPeriod).UnixNano)).2
        = Except.ok el ∧
      (iteration testQueue plainJson neverStop (applyOpts [])
        (addAll testQueue plainJson
          [makeMsg 1700000000000000000 6, makeMsg 1700000000000000000 2,
            makeMsg 1700000000000000000 1] (emptyWorld 1700000000000000000 0)).1).1.log
        = (addAll testQueue plainJson
          [makeMsg 1700000000000000000 6, makeMsg 1700000000000000000 2,
            makeMsg 1700000000000000000 1] (emptyWorld 1700000000000000000 0)).1.log ++ evs ∧
      sleeps evs = waits ++ [(applyOpts []).PollPeriod - waits.sum] ∧
      (∀ d ∈ waits, 0 < d) ∧
      (sleeps evs).sum = (applyOpts []).PollPeriod ∧
      (iteration testQueue plainJson neverStop (applyOpts [])
        (addAll testQueue plainJson
          [makeMsg 1700000000000000000 6, makeMsg 1700000000000000000 2,
            makeMsg 1700000000000000000 1] (emptyWorld 1700000000000000000 0)).1).1.clock
        = (now (addAll testQueue plainJson
          [makeMsg 1700000000000000000 6, makeMsg 1700000000000000000 2,
            makeMsg 1700000000000000000 1]
          (emptyWorld 1700000000000000000 0)).1).Add (applyOpts []).PollPeriod ∧
      (0 ≤ (applyOpts []).PollPeriod →
        (∀ x ∈ el, x.Score ≤ (now (addAll testQueue plainJson
          [makeMsg 1700000000000000000 6, makeMsg 1700000000000000000 2,
            makeMsg 1700000000000000000 1]
          (emptyWorld 1700000000000000000 0)).1).Add (applyOpts []).PollPeriod) →
        ∀ d ∈ sleeps evs, 0 ≤ d) :=
  Dequeue_polling_cadence testQueue plainJson neverStop []
    (addAll testQueue plainJson
      [makeMsg 1700000000000000000 6, makeMsg 1700000000000000000 2,
        makeMsg 1700000000000000000 1] (emptyWorld 1700000000000000000 0)).1
    (by decide)

/-- C9 as stated does not hold. At the time 1700000000000000200 with the poll
period of one second, `nextPoll` is 1700000001000000200 and the upper bound of the
range query is its `float64`, 1700000001000000256. A message with that deadline is
admitted and fetched; the pass waits 1000000056 ns for its deadline, hands it to
the handler, removes it and then requests a sleep of -56 ns. -/
theorem Dequeue_polling_cadence_counterexample :
    0 ≤ (applyOpts []).PollPeriod ∧
    (AddMsg testQueue plainJson none
      { ID := "a", Data := [], Deadline := 1700000001000000256 }
      (emptyWorld 1700000000000000200 0)).2 = none ∧
    (iteration testQueue plainJson neverStop (applyOpts [])
      (AddMsg testQueue plainJson none
        { ID := "a", Data := [], Deadline := 1700000001000000256 }
        (emptyWorld 1700000000000000200 0)).1).2 = Outcome.running ∧
    (iteration testQueue plainJson neverStop (applyOpts [])
      (AddMsg testQueue plainJson none
        { ID := "a", Data := [], Deadline := 1700000001000000256 }
        (emptyWorld 1700000000000000200 0)).1).1.log
      = [Event.zaddnx "delayq" 1700000001000000256 [97, 0],
          Event.zrange "delayq" 0 1700000001000000256
            [{ Member := [97, 0], Score := 1700000001000000256 }],
          Event.sleep 1700000000000000200 1000000056,
          Event.handle 1700000001000000256
            { ID := "a", Data := [], Deadline := 1700000001000000256 },
          Event.zrem "delayq" [97, 0],
          Event.sleep 1700000001000000256 (-56)] := by
  decide

end Cadence

/-! ## Deadline accuracy -/

section Accuracy

variable {σ η : Type}

theorem append_singleton_split {α : Type} (evs pre post : List α) (ev a : α)
    (h : evs ++ [ev] = pre ++ a :: post) :
    (post = [] ∧ pre = evs ∧ a = ev) ∨ ∃ post', post = post' ++ [ev] ∧ evs = pre ++ a :: post' := by
  rcases List.eq_nil_or_concat post with rfl | ⟨post', b, hpost⟩
  case inr =>
    rw [List.concat_eq_append] at hpost
    subst hpost
    right
    have h2 : evs ++ [ev] = (pre ++ a :: post') ++ [b] := by simpa using h
    have h' := List.append_inj' h2 rfl
    have hb : ev = b := by simpa using h'.2
    subst hb
    exact ⟨post', rfl, h'.1⟩
  · left
    have h' := List.append_inj' h rfl
    exact ⟨rfl, h'.1.symm, by simpa using h'.2.symm⟩

theorem AllTimely.nil (js : Json) : AllTimely js [] := by
  intro pre t m post h
  simp at h

theorem AllTimely.other (js : Json) (evs : List Event) (ev : Event)
    (h : AllTimely js evs) (hev : ∀ t m, ev ≠ Event.handle t m) :
    AllTimely js (evs ++ [ev]) := by
  intro pre t m post hsplit
  rcases append_singleton_split evs pre post ev _ hsplit with ⟨_, _, he⟩ | ⟨post', _, he⟩
  · exact absurd he.symm (hev t m)
  · exact h pre t m post' he

theorem AllTimely.handle (js : Json) (evs : List Event) (t : Time) (m : Msg)
    (h : AllTimely js evs) (ht : Timely js evs t m) :
    AllTimely js (evs ++ [Event.handle t m]) := by
  intro pre t' m' post hsplit
  rcases append_singleton_split evs pre post _ _ hsplit with ⟨_, hp, he⟩ | ⟨post', _, he⟩
  · cases he
    rw [hp]
    exact ht
  · exact h pre t' m' post' he

theorem not_ends_with_sleep (evs : List Event) (ev : Event)
    (hev : ∀ t d, ev ≠ Event.sleep t d) :
    ∀ pre' t0 d, evs ++ [ev] ≠ pre' ++ [Event.sleep t0 d] := by
  intro pre' t0 d h
  have h' := List.append_inj' h rfl
  exact hev t0 d (by simpa using h'.2)

theorem wait_timely (js : Json) (L0 evs : List Event) (w : World σ η) (x : Tuple) (m : Msg)
    (hm : decoded js x = some m) (hlog : w.log = L0 ++ evs)
    (hend : ∀ pre' t0 d, evs ≠ pre' ++ [Event.sleep t0 d])
    (hx : ∃ k lo hi el, Event.zrange k lo hi el ∈ evs ∧ x ∈ el) :
    ∃ evs1,
      (if m.Deadline.After (now w) = true then sleep (m.Deadline.Sub (now w)) w else w).log
        = L0 ++ evs1 ∧
      (AllTimely js evs → AllTimely js evs1) ∧
      Timely js evs1
        (if m.Deadline.After (now w) = true then sleep (m.Deadline.Sub (now w)) w else w).clock m ∧
      (∀ ev ∈ evs, ev ∈ evs1) := by
  obtain ⟨k, lo, hi, el, hz, hxel⟩ := hx
  by_cases hA : m.Deadline.After (now w) = true
  · rw [if_pos hA]
    refine ⟨evs ++ [Event.sleep w.clock (m.Deadline.Sub (now w))], ?_, ?_, ?_, ?_⟩
    · simp [sleep, hlog]
    · intro h
      exact AllTimely.other js evs _ h (by simp)
    · refine ⟨?_, ⟨k, lo, hi, el, x, List.mem_append_left _ hz, hxel, hm⟩, Or.inl ⟨evs, w.clock, rfl, hA, rfl⟩⟩
      simp only [sleep, now, Time.Add, Time.Sub]
      linarith
    · intro ev hev
      exact List.mem_append_left _ hev
  · rw [if_neg hA]
    have hA' : m.Deadline.After (now w) = false := by simpa using hA
    refine ⟨evs, hlog, id, ⟨?_, ⟨k, lo, hi, el, x, hz, hxel, hm⟩, Or.inr ⟨hend, hA'⟩⟩, fun _ h => h⟩
    simp only [Time.After, now, decide_eq_false_iff_not, not_lt] at hA'
    exact hA'

theorem deliver_timely (q : Queue σ) (js : Json) (c : Caller η) (L0 : List Event) :
    ∀ (el : List Tuple) (w : World σ η) (evs : List Event),
      w.log = L0 ++ evs → AllTimely js evs →
      (∀ pre' t0 d, evs ≠ pre' ++ [Event.sleep t0 d]) →
      (∀ x ∈ el, ∃ k lo hi el', Event.zrange k lo hi el' ∈ evs ∧ x ∈ el') →
      ∃ evs', (deliver q js c el w).1.log = L0 ++ evs' ∧ AllTimely js evs' := by
  intro el
  induction el with
  | nil => intro w evs hlog hinv _ _; exact ⟨evs, hlog, hinv⟩
  | cons x el ih =>
    intro w evs hlog hinv hend hfetched
    unfold deliver
    split
    · exact ⟨evs, hlog, hinv⟩
    · rename_i id data hu
      have hm : decoded js x
          = some { ID := id, Data := data, Deadline := time_Unix 0 (int64 x.Score) } := by
        simp [decoded, hu]
      obtain ⟨evs1, hlog1, hinv1, ht1, hmono⟩ :=
        wait_timely js L0 evs w x _ hm hlog hend (hfetched x (List.mem_cons_self _ _))
      simp only at hlog1 ht1 ⊢
      generalize (if (time_Unix 0 (int64 x.Score)).After (now w) = true
        then sleep ((time_Unix 0 (int64 x.Score)).Sub (now w)) w else w) = w1 at hlog1 ht1 ⊢
      have hinv2 := AllTimely.handle js evs1 _ _ (hinv1 hinv) ht1
      split
      · exact ⟨_, by simp only [hlog1, List.append_assoc], hinv2⟩
      · have hinv3 := AllTimely.other js _ (Event.zrem q.name x.Member) hinv2 (by simp)
        split
        · exact ⟨_, by simp only [hlog1, List.append_assoc], hinv3⟩
        · refine ih _ _ (by simp only [hlog1, List.append_assoc]) hinv3
            (not_ends_with_sleep _ _ (by simp)) ?_
          intro y hy
          obtain ⟨k, lo, hi, el', hz, hyel⟩ := hfetched y (List.mem_cons_of_mem _ hy)
          exact ⟨k, lo, hi, el', List.mem_append_left _ (List.mem_append_left _ (hmono _ hz)), hyel⟩

theorem iteration_timely (q : Queue σ) (js : Json) (c : Caller η) (o : options)
    (L0 evs : List Event) (w : World σ η) (hlog : w.log = L0 ++ evs)
    (hinv : AllTimely js evs) :
    ∃ evs', (iteration q js c o w).1.log = L0 ++ evs' ∧ AllTimely js evs' := by
  unfold iteration
  split
  · exact ⟨evs, hlog, hinv⟩
  · simp only
    split
    · exact ⟨evs ++ [Event.zrange q.name 0 (float64 ((now w).Add o.PollPeriod).UnixNano) []],
        by simp only [hlog, List.append_assoc],
        AllTimely.other js evs _ hinv (by simp)⟩
    · rename_i el hel
      obtain ⟨evs2, hlog2, hinv2⟩ := deliver_timely q js c L0 el
        { w with store := (q.cl.ZRangeByScore w.store (c.ctxErr w.env) q.name 0
                    (float64 ((now w).Add o.PollPeriod).UnixNano)).1,
                 log := w.log ++ [Event.zrange q.name 0
                    (float64 ((now w).Add o.PollPeriod).UnixNano) el] }
        (evs ++ [Event.zrange q.name 0 (float64 ((now w).Add o.PollPeriod).UnixNano) el])
        (by simp only [hlog, List.append_assoc])
        (AllTimely.other js evs _ hinv (by simp))
        (not_ends_with_sleep _ _ (by simp))
        (fun x hx => ⟨q.name, 0, float64 ((now w).Add o.PollPeriod).UnixNano, el,
          List.mem_append_right _ (List.mem_singleton.mpr rfl), hx⟩)
      split
      · rename_i w2 err hw2
        rw [hw2] at hlog2
        exact ⟨evs2, hlog2, hinv2⟩
      · rename_i w2 hw2
        rw [hw2] at hlog2
        simp only at hlog2
        exact ⟨evs2 ++ [Event.sleep w2.clock (((now w).Add o.PollPeriod).Sub (now w2))],
          by simp only [sleep, hlog2, List.append_assoc],
          AllTimely.other js evs2 _ hinv2 (by simp)⟩

theorem loop_timely (q : Queue σ) (js : Json) (c : Caller η) (o : options)
    (L0 : List Event) :
    ∀ (fuel : Nat) (evs : List Event) (w : World σ η), w.log = L0 ++ evs → AllTimely js evs →
      ∃ evs', (loop q js c o fuel w).1.log = L0 ++ evs' ∧ AllTimely js evs' := by
  intro fuel
  induction fuel with
  | zero => intro evs w hlog hinv; exact ⟨evs, hlog, hinv⟩
  | succ n ih =>
    intro evs w hlog hinv
    obtain ⟨evs1, hlog1, hinv1⟩ := iteration_timely q js c o L0 evs w hlog hinv
    unfold loop
    split
    · rename_i w1 hw1
      rw [hw1] at hlog1
      exact ih evs1 w1 hlog1 hinv1
    · rename_i w1 err hw1
      rw [hw1] at hlog1
      exact ⟨evs1, hlog1, hinv1⟩

/-- C5. Under the virtual clock, every handler invocation made by `Dequeue` is
timely: the current time is not before the deadline of the message passed, that
deadline being the instant given by the score of the fetched entry the message
was decoded from; and the invocation comes right after a sleep exactly when the
deadline was strictly after the current time, the sleep being for the difference
and ending at the deadline. -/
theorem Dequeue_deadline_accuracy (q : Queue σ) (js : Json) (c : Caller η)
    (opts : List (options → options)) (fuel : Nat) (w : World σ η) :
    ∃ evs, (Dequeue q js c opts fuel w).1.log = w.log ++ evs ∧
      ∀ pre t m post, evs = pre ++ Event.handle t m :: post →
        m.Deadline ≤ t ∧
        (∃ k lo hi el x, Event.zrange k lo hi el ∈ pre ∧ x ∈ el ∧ decoded js x = some m ∧
          m.Deadline = time_Unix 0 (int64 x.Score)) ∧
        ((∃ pre' t0, pre = pre' ++ [Event.sleep t0 (m.Deadline.Sub t0)] ∧
            m.Deadline.After t0 = true ∧ t = t0.Add (m.Deadline.Sub t0)) ∨
         ((∀ pre' t0 d, pre ≠ pre' ++ [Event.sleep t0 d]) ∧ m.Deadline.After t = false)) := by
  obtain ⟨evs, hlog, hinv⟩ :=
    loop_timely q js c (applyOpts opts) w.log fuel [] w (by simp) (AllTimely.nil js)
  refine ⟨evs, hlog, fun pre t m post hsplit => ?_⟩
  obtain ⟨h1, ⟨k, lo, hi, el, x, hz, hx, hm⟩, h3⟩ := hinv pre t m post hsplit
  refine ⟨h1, ⟨k, lo, hi, el, x, hz, hx, hm, ?_⟩, h3⟩
  unfold decoded at hm
  split at hm
  · simp at hm
  · simp only [Option.some.injEq] at hm
    rw [← hm]

theorem Dequeue_deadline_accuracy_witness :
    (makeMsg 0 1).Deadline ≤ 200000000 ∧
    (∃ k lo hi el x,
      Event.zrange k lo hi el ∈
        [Event.zrange "delayq" 0 1000000000
            [{ Member := [48, 0, 48], Score := 0 }, { Member := [49, 0, 49], Score := 200000000 }],
          Event.handle 0 (makeMsg 0 0), Event.zrem "delayq" [48, 0, 48],
          Event.sleep 0 200000000] ∧
      x ∈ el ∧ decoded plainJson x = some (makeMsg 0 1) ∧
      (makeMsg 0 1).Deadline = time_Unix 0 (int64 x.Score)) ∧
    ((∃ pre' t0,
      [Event.zrange "delayq" 0 1000000000
          [{ Member := [48, 0, 48], Score := 0 }, { Member := [49, 0, 49], Score := 200000000 }],
        Event.handle 0 (makeMsg 0 0), Event.zrem "delayq" [48, 0, 48],
        Event.sleep 0 200000000]
        = pre' ++ [Event.sleep t0 ((makeMsg 0 1).Deadline.Sub t0)] ∧
      (makeMsg 0 1).Deadline.After t0 = true ∧
      200000000 = t0.Add ((makeMsg 0 1).Deadline.Sub t0)) ∨
     ((∀ pre' t0 d,
        [Event.zrange "delayq" 0 1000000000
            [{ Member := [48, 0, 48], Score := 0 }, { Member := [49, 0, 49], Score := 200000000 }],
          Event.handle 0 (makeMsg 0 0), Event.zrem "delayq" [48, 0, 48],
          Event.sleep 0 200000000]
          ≠ pre' ++ [Event.sleep t0 d]) ∧
      (makeMsg 0 1).Deadline.After 200000000 = false)) := by
  obtain ⟨evs, hlog, h⟩ := Dequeue_deadline_accuracy testQueue plainJson (stopAfter 2 EOF) [] 5
    (addAll testQueue plainJson [makeMsg 0 1, makeMsg 0 0] (emptyWorld 0 0)).1
  have hrun : (Dequeue testQueue plainJson (stopAfter 2 EOF) [] 5
      (addAll testQueue plainJson [makeMsg 0 1, makeMsg 0 0] (emptyWorld 0 0)).1).1.log
      = (addAll testQueue plainJson [makeMsg 0 1, makeMsg 0 0] (emptyWorld 0 0)).1.log ++
        ([Event.zrange "delayq" 0 1000000000
            [{ Member := [48, 0, 48], Score := 0 }, { Member := [49, 0, 49], Score := 200000000 }],
          Event.handle 0 (makeMsg 0 0), Event.zrem "delayq" [48, 0, 48],
          Event.sleep 0 200000000] ++ Event.handle 200000000 (makeMsg 0 1) :: []) := by
    decide
  rw [hrun] at hlog
  exact h _ 200000000 (makeMsg 0 1) [] (List.append_cancel_left hlog).symm

end Accuracy

/-! ## Poll window -/

section Window

variable {σ η : Type}

theorem deliver_log_extends (q : Queue σ) (js : Json) (c : Caller η) :
    ∀ (el : List Tuple) (w : World σ η), ∃ evs, (deliver q js c el w).1.log = w.log ++ evs := by
  intro el
  induction el with
  | nil => intro w; exact ⟨[], by simp [deliver]⟩
  | cons x el ih =>
    intro w
    unfold deliver
    split
    · exact ⟨[], by simp⟩
    · simp only
      have h1 : ∃ evs, (if (time_Unix 0 (int64 x.Score)).After (now w) = true
          then sleep ((time_Unix 0 (int64 x.Score)).Sub (now w)) w else w).log = w.log ++ evs := by
        split
        · exact ⟨_, rfl⟩
        · exact ⟨[], by simp⟩
      obtain ⟨evs1, h1⟩ := h1
      generalize (if (time_Unix 0 (int64 x.Score)).After (now w) = true
        then sleep ((time_Unix 0 (int64 x.Score)).Sub (now w)) w else w) = w1 at h1 ⊢
      split
      · exact ⟨_, by rw [h1, List.append_assoc]⟩
      · split
        · exact ⟨_, by rw [h1, List.append_assoc, List.append_assoc]⟩
        · rename_i id data _ _ _ _ _
          obtain ⟨evs2, h2⟩ := ih
            { w1 with
              store := (q.cl.ZRem w1.store
                (c.ctxErr (c.handler w1.env
                  { ID := id, Data := data, Deadline := time_Unix 0 (int64 x.Score) }).1)
                q.name x.Member).1,
              env := (c.handler w1.env
                { ID := id, Data := data, Deadline := time_Unix 0 (int64 x.Score) }).1,
              log := w1.log ++ [Event.handle w1.clock
                { ID := id, Data := data, Deadline := time_Unix 0 (int64 x.Score) }]
                ++ [Event.zrem q.name x.Member] }
          exact ⟨_, by rw [h2, h1, List.append_assoc, List.append_assoc, List.append_assoc]⟩

theorem iteration_log_query (q : Queue σ) (js : Json) (c : Caller η) (o : options)
    (w : World σ η) (hctx : c.ctxErr w.env = none) (el : List Tuple)
    (hel : (q.cl.ZRangeByScore w.store none q.name 0
      (float64 ((now w).Add o.PollPeriod).UnixNano)).2 = Except.ok el) :
    ∃ rest, (iteration q js c o w).1.log
      = w.log ++ Event.zrange q.name 0 (float64 ((now w).Add o.PollPeriod).UnixNano) el :: rest := by
  obtain ⟨evs, hevs⟩ := deliver_log_extends q js c el
    { w with store := (q.cl.ZRangeByScore w.store none q.name 0
                (float64 ((now w).Add o.PollPeriod).UnixNano)).1,
             log := w.log ++ [Event.zrange q.name 0
                (float64 ((now w).Add o.PollPeriod).UnixNano) el] }
  unfold iteration
  simp only [hctx, hel]
  split
  · rename_i w2 err hw2
    rw [hw2] at hevs
    simp only at hevs
    exact ⟨evs, by simp only [hevs, List.append_assoc, List.singleton_append]⟩
  · rename_i w2 hw2
    rw [hw2] at hevs
    simp only at hevs
    exact ⟨evs ++ [Event.sleep w2.clock (((now w).Add o.PollPeriod).Sub (now w2))],
      by simp only [sleep, hevs, List.append_assoc, List.singleton_append, List.cons_append,
        List.nil_append]⟩

theorem applyOpts_last (ds : List Duration) (d : Duration) :
    (applyOpts ((ds ++ [d]).map WithPollPeriod)).PollPeriod = d := by
  simp [applyOpts, WithPollPeriod, List.foldl_append]

/-- C7, as amended. The poll period is one second when no option is given and the
value of the last `WithPollPeriod` option otherwise. A message that `AddMsg` admits
is in the store, its score being `float64` of the `UnixNano` of its deadline. In a
pass of `Dequeue` over the model store that begins with a live context, the batch
returned to the loop by the range query holds every entry stored under the name of
the queue whose score lies between 0 and the upper bound of the query. When
`nextPoll`, the current time plus the poll period, is in the range of `int64`
nanoseconds, the batch holds every entry whose deadline lies between 0 and
`nextPoll`; when moreover the poll period is not negative, it holds in particular
every entry whose deadline lies between 0 and the current time. -/
theorem Dequeue_poll_window (js : Json) (c : Caller η) (name : String)
    (opts : List (options → options)) (w : World Store η) (hctx : c.ctxErr w.env = none) :
    (applyOpts []).PollPeriod = Second ∧
    (∀ ds d, (applyOpts ((ds ++ [d]).map WithPollPeriod)).PollPeriod = d) ∧
    (∀ (ctx : GoError) (m : Msg) (v : World Store η),
      (AddMsg (New memRedis name) js ctx m v).2 = none →
      ∃ b, js.Marshal m.ID m.Data = Except.ok b ∧
        { key := name, member := b, score := float64 m.Deadline.UnixNano }
          ∈ (AddMsg (New memRedis name) js ctx m v).1.store) ∧
    ∃ el rest,
      (iteration (New memRedis name) js c (applyOpts opts) w).1.log
        = w.log ++ Event.zrange name 0
            (float64 ((now w).Add (applyOpts opts).PollPeriod).UnixNano) el :: rest ∧
      (∀ e ∈ w.store, e.key = name → 0 ≤ e.score →
        e.score ≤ float64 ((now w).Add (applyOpts opts).PollPeriod).UnixNano → e.tuple ∈ el) ∧
      ((now w).Add (applyOpts opts).PollPeriod < 2 ^ 63 →
        ∀ (d : Time) (b : Bytes),
          ({ key := name, member := b, score := float64 d.UnixNano } : Entry) ∈ w.store →
          0 ≤ d → d ≤ (now w).Add (applyOpts opts).PollPeriod →
          ({ Member := b, Score := float64 d.UnixNano } : Tuple) ∈ el) ∧
      ((now w).Add (applyOpts opts).PollPeriod < 2 ^ 63 → 0 ≤ (applyOpts opts).PollPeriod →
        ∀ (d : Time) (b : Bytes),
          ({ key := name, member := b, score := float64 d.UnixNano } : Entry) ∈ w.store →
          0 ≤ d → d ≤ now w →
          ({ Member := b, Score := float64 d.UnixNano } : Tuple) ∈ el) := by
  refine ⟨rfl, applyOpts_last, ?_, ?_⟩
  · intro ctx m v hnil
    obtain ⟨b, _, hb, _, _⟩ := (AddMsg_nil_iff (New memRedis name) js ctx m v).mp hnil
    refine ⟨b, hb, ?_⟩
    have h1 := AddMsg_memRedis name js ctx m v b hb
    by_cases hany : v.store.any (Entry.isAt name b) = true
    · rw [h1, if_pos hany] at hnil
      simp at hnil
    · rw [h1, if_neg hany]
      simp
  · have hrange : (memRedis.ZRangeByScore w.store none name 0
        (float64 ((now w).Add (applyOpts opts).PollPeriod).UnixNano)).2
        = Except.ok (((w.store.filter (Entry.inRange name 0
            (float64 ((now w).Add (applyOpts opts).PollPeriod).UnixNano))).map
              Entry.tuple).insertionSort tupleLE) := rfl
    have hmem := memRedis_range_mem w.store none name 0 _ _ hrange
    obtain ⟨rest, hrest⟩ := iteration_log_query (New memRedis name) js c (applyOpts opts) w
      hctx _ hrange
    have hcov : ∀ e ∈ w.store, e.key = name → 0 ≤ e.score →
        e.score ≤ float64 ((now w).Add (applyOpts opts).PollPeriod).UnixNano →
        e.tuple ∈ ((w.store.filter (Entry.inRange name 0
            (float64 ((now w).Add (applyOpts opts).PollPeriod).UnixNano))).map
              Entry.tuple).insertionSort tupleLE :=
      fun e he hk h0 h1 => (hmem e.tuple).mpr ⟨e, he, hk, h0, h1, rfl⟩
    have hdl : (now w).Add (applyOpts opts).PollPeriod < 2 ^ 63 →
        ∀ (d : Time) (b : Bytes),
          ({ key := name, member := b, score := float64 d.UnixNano } : Entry) ∈ w.store →
          0 ≤ d → d ≤ (now w).Add (applyOpts opts).PollPeriod →
          ({ Member := b, Score := float64 d.UnixNano } : Tuple) ∈
            ((w.store.filter (Entry.inRange name 0
              (float64 ((now w).Add (applyOpts opts).PollPeriod).UnixNano))).map
                Entry.tuple).insertionSort tupleLE := by
      intro hhi d b he h0 h1
      have hd : Time.UnixNano d = d :=
        wrap64_of_range d (le_trans (by norm_num) h0) (lt_of_le_of_lt h1 hhi)
      exact hcov _ he rfl
        (by
          show (0 : Int) ≤ float64 d.UnixNano
          rw [hd]
          exact float64_nonneg d h0)
        (score_mono d _ (le_trans (by norm_num) h0) h1 hhi)
    refine ⟨_, rest, hrest, hcov, hdl, fun hhi hp d b he h0 h1 => hdl hhi d b he h0 ?_⟩
    simp only [Time.Add, now] at h1 ⊢
    linarith

theorem Dequeue_poll_window_witness :
    (applyOpts []).PollPeriod = Second ∧
    (∀ ds d, (applyOpts ((ds ++ [d]).map WithPollPeriod)).PollPeriod = d) ∧
    (∀ (ctx : GoError) (m : Msg) (v : World Store Nat),
      (AddMsg (New memRedis "delayq") plainJson ctx m v).2 = none →
      ∃ b, plainJson.Marshal m.ID m.Data = Except.ok b ∧
        { key := "delayq", member := b, score := float64 m.Deadline.UnixNano }
          ∈ (AddMsg (New memRedis "delayq") plainJson ctx m v).1.store) ∧
    ∃ el rest,
      (iteration (New memRedis "delayq") plainJson neverStop (applyOpts [WithPollPeriod Second])
          (addAll testQueue plainJson
            [makeMsg 1700000000000000000 6, makeMsg 1700000000000000000 1]
            (emptyWorld 1700000000000000000 0)).1).1.log
        = (addAll testQueue plainJson
            [makeMsg 1700000000000000000 6, makeMsg 1700000000000000000 1]
            (emptyWorld 1700000000000000000 0)).1.log
          ++ Event.zrange "delayq" 0
            (float64 ((now (addAll testQueue plainJson
              [makeMsg 1700000000000000000 6, makeMsg 1700000000000000000 1]
              (emptyWorld 1700000000000000000 0)).1).Add
                (applyOpts [WithPollPeriod Second]).PollPeriod).UnixNano)
            el :: rest ∧
      (∀ e ∈ (addAll testQueue plainJson
            [makeMsg 1700000000000000000 6, makeMsg 1700000000000000000 1]
            (emptyWorld 1700000000000000000 0)).1.store,
        e.key = "delayq" → 0 ≤ e.score →
        e.score ≤ float64 ((now (addAll testQueue plainJson
            [makeMsg 1700000000000000000 6, makeMsg 1700000000000000000 1]
            (emptyWorld 1700000000000000000 0)).1).Add
              (applyOpts [WithPollPeriod Second]).PollPeriod).UnixNano →
        e.tuple ∈ el) ∧
      ((now (addAll testQueue plainJson
            [makeMsg 1700000000000000000 6, makeMsg 1700000000000000000 1]
            (emptyWorld 1700000000000000000 0)).1).Add
              (applyOpts [WithPollPeriod Second]).PollPeriod < 2 ^ 63 →
        ∀ (d : Time) (b : Bytes),
          ({ key := "delayq", member := b, score := float64 d.UnixNano } : Entry) ∈
            (addAll testQueue plainJson
              [makeMsg 1700000000000000000 6, makeMsg 1700000000000000000 1]
              (emptyWorld 1700000000000000000 0)).1.store →
          0 ≤ d → d ≤ (now (addAll testQueue plainJson
              [makeMsg 1700000000000000000 6, makeMsg 1700000000000000000 1]
              (emptyWorld 1700000000000000000 0)).1).Add
                (applyOpts [WithPollPeriod Second]).PollPeriod →
          ({ Member := b, Score := float64 d.UnixNano } : Tuple) ∈ el) ∧
      ((now (addAll testQueue plainJson
            [makeMsg 1700000000000000000 6, makeMsg 1700000000000000000 1]
            (emptyWorld 1700000000000000000 0)).1).Add
              (applyOpts [WithPollPeriod Second]).PollPeriod < 2 ^ 63 →
        0 ≤ (applyOpts [WithPollPeriod Second]).PollPeriod →
        ∀ (d : Time) (b : Bytes),
          ({ key := "delayq", member := b, score := float64 d.UnixNano } : Entry) ∈
            (addAll testQueue plainJson
              [makeMsg 1700000000000000000 6, makeMsg 1700000000000000000 1]
              (emptyWorld 1700000000000000000 0)).1.store →
          0 ≤ d → d ≤ now (addAll testQueue plainJson
              [makeMsg 1700000000000000000 6, makeMsg 1700000000000000000 1]
              (emptyWorld 1700000000000000000 0)).1 →
          ({ Member := b, Score := float64 d.UnixNano } : Tuple) ∈ el) :=
  Dequeue_poll_window plainJson neverStop "delayq" [WithPollPeriod Second]
    (addAll testQueue plainJson
      [makeMsg 1700000000000000000 6, makeMsg 1700000000000000000 1]
      (emptyWorld 1700000000000000000 0)).1 rfl

/-- C7 as stated does not hold. A message with the deadline -1 is admitted and is
in the store with a deadline before the current time 0, yet the pass fetches an
empty batch, the range query starting at score 0. With the poll period -5 at time
5, a message admitted with the deadline 3 is due, yet the pass fetches an empty
batch, `nextPoll` being 0. With the poll period 9223372036854775807 at the time
1700000000000000000, a message admitted with the deadline 3 is due, yet the pass
fetches an empty batch: `nextPoll` lies after the year 2262, its `UnixNano` wraps
and the upper bound of the range query is negative. -/
theorem Dequeue_poll_window_counterexample :
    ((AddMsg testQueue plainJson none { ID := "a", Data := [], Deadline := -1 }
        (emptyWorld 0 0)).2 = none ∧
      ({ key := "delayq", member := [97, 0], score := -1 } : Entry) ∈
        (AddMsg testQueue plainJson none { ID := "a", Data := [], Deadline := -1 }
          (emptyWorld 0 0)).1.store ∧
      (-1 : Time) ≤ now (AddMsg testQueue plainJson none { ID := "a", Data := [], Deadline := -1 }
          (emptyWorld 0 0)).1 ∧
      (iteration testQueue plainJson neverStop (applyOpts [])
        (AddMsg testQueue plainJson none { ID := "a", Data := [], Deadline := -1 }
          (emptyWorld 0 0)).1).1.log
        = [Event.zaddnx "delayq" (-1) [97, 0], Event.zrange "delayq" 0 1000000000 [],
            Event.sleep 0 1000000000]) ∧
    ((AddMsg testQueue plainJson none { ID := "a", Data := [], Deadline := 3 }
        (emptyWorld 5 0)).2 = none ∧
      ({ key := "delayq", member := [97, 0], score := 3 } : Entry) ∈
        (AddMsg testQueue plainJson none { ID := "a", Data := [], Deadline := 3 }
          (emptyWorld 5 0)).1.store ∧
      (3 : Time) ≤ now (AddMsg testQueue plainJson none { ID := "a", Data := [], Deadline := 3 }
          (emptyWorld 5 0)).1 ∧
      (iteration testQueue plainJson neverStop (applyOpts [WithPollPeriod (-5)])
        (AddMsg testQueue plainJson none { ID := "a", Data := [], Deadline := 3 }
          (emptyWorld 5 0)).1).1.log
        = [Event.zaddnx "delayq" 3 [97, 0], Event.zrange "delayq" 0 0 [],
            Event.sleep 5 (-5)]) ∧
    (0 ≤ (applyOpts [WithPollPeriod 9223372036854775807]).PollPeriod ∧
      (AddMsg testQueue plainJson none { ID := "a", Data := [], Deadline := 3 }
        (emptyWorld 1700000000000000000 0)).2 = none ∧
      ({ key := "delayq", member := [97, 0], score := 3 } : Entry) ∈
        (AddMsg testQueue plainJson none { ID := "a", Data := [], Deadline := 3 }
          (emptyWorld 1700000000000000000 0)).1.store ∧
      (3 : Time) ≤ now (AddMsg testQueue plainJson none { ID := "a", Data := [], Deadline := 3 }
          (emptyWorld 1700000000000000000 0)).1 ∧
      (iteration testQueue plainJson neverStop (applyOpts [WithPollPeriod 9223372036854775807])
        (AddMsg testQueue plainJson none { ID := "a", Data := [], Deadline := 3 }
          (emptyWorld 1700000000000000000 0)).1).1.log
        = [Event.zaddnx "delayq" 3 [97, 0],
            Event.zrange "delayq" 0 (-7523372036854775808) [],
            Event.sleep 1700000000000000000 9223372036854775807]) := by
  decide

end Window

/-! ## Delivery of a batch over the model store -/

section Batch

variable {η : Type}

theorem mem_removeAll (name : String) :
    ∀ (pre : List Tuple) (s : Store) (e : Entry),
      e ∈ removeAll name pre s ↔ e ∈ s ∧ ∀ y ∈ pre, Entry.isAt name y.Member e = false := by
  intro pre
  induction pre with
  | nil => intro s e; simp [removeAll]
  | cons y pre ih =>
    intro s e
    have h : removeAll name (y :: pre) s
        = removeAll name pre (s.filter (fun e => !Entry.isAt name y.Member e)) := rfl
    rw [h, ih]
    simp only [List.mem_filter, Bool.not_eq_true', List.mem_cons, forall_eq_or_imp]
    tauto

theorem removeAll_append (name : String) (l₁ l₂ : List Tuple) (s : Store) :
    removeAll name (l₁ ++ l₂) s = removeAll name l₂ (removeAll name l₁ s) := by
  simp [removeAll, List.foldl_append]

theorem handlerRun_append (c : Caller η) :
    ∀ (l₁ l₂ : List Msg) (e : η), (handlerRun c e l₁).2 = none →
      handlerRun c e (l₁ ++ l₂) = handlerRun c (handlerRun c e l₁).1 l₂ := by
  intro l₁
  induction l₁ with
  | nil => intro l₂ e _; rfl
  | cons m l₁ ih =>
    intro l₂ e h
    simp only [handlerRun, List.cons_append] at h ⊢
    split at h
    · simp at h
    · exact ih l₂ _ h

/-- The part of a batch on which the handler succeeds is delivered and removed. -/
theorem deliver_prefix (js : Json) (c : Caller η) (name : String) :
    ∀ (pre rest : List Tuple) (w : World Store η),
      (∀ y ∈ pre, ∃ v, js.Unmarshal y.Member = Except.ok v) →
      (handlerRun c w.env (pre.filterMap (decoded js))).2 = none →
      ∃ w', deliver (New memRedis name) js c (pre ++ rest) w
              = deliver (New memRedis name) js c rest w' ∧
        w'.env = (handlerRun c w.env (pre.filterMap (decoded js))).1 ∧
        w'.store = removeAll name pre w.store ∧
        handled w'.log = handled w.log ++ pre.filterMap (decoded js) ∧
        removed w'.log = removed w.log ++ pre.map Tuple.Member ∧
        w.clock ≤ w'.clock ∧
        (∀ B, w.clock ≤ B → (∀ y ∈ pre, y.Score ≤ B) → w'.clock ≤ B) := by
  intro pre
  induction pre with
  | nil =>
    intro rest w _ _
    exact ⟨w, rfl, rfl, rfl, by simp, by simp, le_refl _, fun B h _ => h⟩
  | cons x pre ih =>
    intro rest w hdec hrun
    obtain ⟨⟨id, data⟩, hv⟩ := hdec x (List.mem_cons_self _ _)
    have hm : decoded js x
        = some { ID := id, Data := data, Deadline := time_Unix 0 (int64 x.Score) } := by
      simp [decoded, hv]
    simp only [List.filterMap_cons, hm, handlerRun] at hrun ⊢
    have hw1 : ∃ w1 : World Store η,
        w1 = (if (time_Unix 0 (int64 x.Score)).After (now w) = true
          then sleep ((time_Unix 0 (int64 x.Score)).Sub (now w)) w else w) ∧
        w1.env = w.env ∧ w1.store = w.store ∧ handled w1.log = handled w.log ∧
        removed w1.log = removed w.log ∧ w.clock ≤ w1.clock ∧
        (∀ B, w.clock ≤ B → x.Score ≤ B → w1.clock ≤ B) := by
      refine ⟨_, rfl, wait_env _ _ _, wait_store _ _ _, wait_handled _ _ _,
        wait_removed _ _ _, ?_, ?_⟩
      · split
        · rename_i h
          simp only [Time.After, now, time_Unix, int64, decide_eq_true_eq] at h
          simp only [sleep, now, Time.Add, Time.Sub, time_Unix, int64]
          linarith
        · exact le_refl _
      · intro B hB hx
        split
        · simp only [sleep, now, Time.Add, Time.Sub, time_Unix, int64]
          linarith
        · exact hB
    obtain ⟨w1, hw1eq, henv1, hstore1, hh1, hr1, hc1, hb1⟩ := hw1
    split at hrun
    · simp at hrun
    · rename_i hnil
      have hnil1 : (c.handler w1.env
          { ID := id, Data := data, Deadline := time_Unix 0 (int64 x.Score) }).2 = none := by
        rw [henv1]; exact hnil
      obtain ⟨w', hd, henv', hstore', hh', hr', hc', hb'⟩ := ih rest
        { w1 with
          store := (memRedis.ZRem w1.store none name x.Member).1,
          env := (c.handler w1.env
            { ID := id, Data := data, Deadline := time_Unix 0 (int64 x.Score) }).1,
          log := w1.log ++ [Event.handle w1.clock
            { ID := id, Data := data, Deadline := time_Unix 0 (int64 x.Score) }]
            ++ [Event.zrem name x.Member] }
        (fun y hy => hdec y (List.mem_cons_of_mem _ hy))
        (by simp only [henv1]; exact hrun)
      refine ⟨w', ?_, ?_, ?_, ?_, ?_, ?_, ?_⟩
      · rw [← hd, List.cons_append]
        conv_lhs => unfold deliver
        simp only [hv, ← hw1eq, hnil1, New]
        rfl
      · rw [henv']
        simp only [henv1]
      · rw [hstore']
        simp only [hstore1]
        rfl
      · rw [hh']
        simp [handled, hh1]
      · rw [hr']
        simp [removed, hr1]
      · exact le_trans hc1 hc'
      · intro B hB hall
        exact hb' B (hb1 B hB (hall x (List.mem_cons_self _ _)))
          (fun y hy => hall y (List.mem_cons_of_mem _ hy))

theorem deliver_handler_error {σ : Type} (q : Queue σ) (js : Json) (c : Caller η) (x : Tuple)
    (post : List Tuple) (w : World σ η) (m : Msg) (hm : decoded js x = some m) (E : Error)
    (hE : (c.handler w.env m).2 = some E) :
    (deliver q js c (x :: post) w).2 = Outcome.returned (some E) ∧
    (deliver q js c (x :: post) w).1.store = w.store ∧
    (deliver q js c (x :: post) w).1.env = (c.handler w.env m).1 ∧
    handled (deliver q js c (x :: post) w).1.log = handled w.log ++ [m] ∧
    removed (deliver q js c (x :: post) w).1.log = removed w.log := by
  unfold decoded at hm
  split at hm
  · simp at hm
  · rename_i id data hv
    simp only [Option.some.injEq] at hm
    subst hm
    unfold deliver
    simp only [hv, wait_env, hE]
    simp only [wait_store, handled_append, wait_handled, removed_append, wait_removed,
      handled, removed, List.append_nil, and_self]

theorem range_members_nodup (s : Store) (hwf : UniqueMembers s) (ctx : GoError) (key : String)
    (lo hi : Float64) (el : List Tuple)
    (h : (memRedis.ZRangeByScore s ctx key lo hi).2 = Except.ok el) :
    (el.map Tuple.Member).Nodup := by
  simp only [memRedis, Except.ok.injEq] at h
  subst h
  rw [((List.perm_insertionSort tupleLE _).map Tuple.Member).nodup_iff]
  rw [List.map_map]
  have h1 : (s.filter (Entry.inRange key lo hi)).Pairwise
      (fun a b => a.key = b.key → a.member ≠ b.member) := List.Pairwise.filter _ hwf
  have h2 : (s.filter (Entry.inRange key lo hi)).Pairwise (fun a b => a.member ≠ b.member) := by
    refine List.Pairwise.imp_of_mem ?_ h1
    intro a b ha hb hab
    have hka : a.key = key := by
      have := (List.mem_filter.mp ha).2
      simp only [Entry.inRange, Bool.and_eq_true, decide_eq_true_eq] at this
      exact this.1
    have hkb : b.key = key := by
      have := (List.mem_filter.mp hb).2
      simp only [Entry.inRange, Bool.and_eq_true, decide_eq_true_eq] at this
      exact this.1
    exact hab (hka.trans hkb.symm)
  exact List.Pairwise.map _ (fun a b hab => hab) h2

theorem range_entry_mem (s : Store) (ctx : GoError) (key : String) (lo hi : Float64) (el : List Tuple)
    (h : (memRedis.ZRangeByScore s ctx key lo hi).2 = Except.ok el) (y : Tuple) (hy : y ∈ el) :
    ({ key := key, member := y.Member, score := y.Score } : Entry) ∈ s := by
  obtain ⟨e, he, hk, _, _, ht⟩ := (memRedis_range_mem s ctx key lo hi el h y).mp hy
  have : e = { key := key, member := y.Member, score := y.Score } := by
    cases e
    simp only [Entry.tuple] at ht
    subst ht
    simp only at hk
    subst hk
    rfl
  rw [← this]
  exact he

/-- A pass whose batch is `pre ++ x :: post`, the handler succeeding on `pre` and
failing on `x`, returns the error of the handler with `pre` removed from the store. -/
theorem iteration_handler_error (js : Json) (c : Caller η) (name : String)
    (o : options) (w : World Store η) (pre post : List Tuple)
    (x : Tuple) (mx : Msg) (E : Error)
    (hctx : c.ctxErr w.env = none)
    (hbatch : (memRedis.ZRangeByScore w.store none name 0
      (float64 ((now w).Add o.PollPeriod).UnixNano)).2 = Except.ok (pre ++ x :: post))
    (hdec : ∀ y ∈ pre, ∃ v, js.Unmarshal y.Member = Except.ok v)
    (hpre : (handlerRun c w.env (pre.filterMap (decoded js))).2 = none)
    (hmx : decoded js x = some mx)
    (hx : (c.handler (handlerRun c w.env (pre.filterMap (decoded js))).1 mx).2 = some E) :
    (iteration (New memRedis name) js c o w).2 = Outcome.returned (some E) ∧
    handled (iteration (New memRedis name) js c o w).1.log
      = handled w.log ++ pre.filterMap (decoded js) ++ [mx] ∧
    removed (iteration (New memRedis name) js c o w).1.log
      = removed w.log ++ pre.map Tuple.Member ∧
    (iteration (New memRedis name) js c o w).1.store = removeAll name pre w.store := by
  obtain ⟨w', hd, henv', hstore', hh', hr', _, _⟩ := deliver_prefix js c name pre (x :: post)
    { w with log := w.log ++ [Event.zrange name 0
        (float64 ((now w).Add o.PollPeriod).UnixNano) (pre ++ x :: post)] }
    hdec hpre
  simp only at henv' hstore' hh' hr'
  obtain ⟨e1, e2, e3, e4, e5⟩ := deliver_handler_error (New memRedis name) js c x post w' mx hmx E
    (by rw [henv']; exact hx)
  rw [← hd] at e1 e2 e3 e4 e5
  have hiter : iteration (New memRedis name) js c o w
      = ((deliver (New memRedis name) js c (pre ++ x :: post)
          { w with log := w.log ++ [Event.zrange name 0
            (float64 ((now w).Add o.PollPeriod).UnixNano) (pre ++ x :: post)] }).1,
        Outcome.returned (some E)) := by
    unfold iteration
    simp only [hctx]
    have hb : ((New memRedis name).cl.ZRangeByScore w.store none (New memRedis name).name 0
      (float64 ((now w).Add o.PollPeriod).UnixNano)).2
        = Except.ok (pre ++ x :: post) := hbatch
    simp only [hb]
    split
    · rename_i w2 err hw2
      have hw2' : deliver (New memRedis name) js c (pre ++ x :: post)
          { w with log := w.log ++ [Event.zrange name 0
            (float64 ((now w).Add o.PollPeriod).UnixNano) (pre ++ x :: post)] }
          = (w2, Outcome.returned err) := hw2
      rw [hw2'] at e1 ⊢
      simp only at e1
      rw [e1]
    · rename_i w2 hw2
      have hw2' : deliver (New memRedis name) js c (pre ++ x :: post)
          { w with log := w.log ++ [Event.zrange name 0
            (float64 ((now w).Add o.PollPeriod).UnixNano) (pre ++ x :: post)] }
          = (w2, Outcome.running) := hw2
      rw [hw2'] at e1
      simp at e1
  rw [hiter]
  simp only
  refine ⟨trivial, ?_, ?_, ?_⟩
  · rw [e4, hh']
    simp [handled]
  · rw [e5, hr']
    simp [removed]
  · rw [e2, hstore']

theorem loop_of_iteration_returned {σ : Type} (q : Queue σ) (js : Json) (c : Caller η)
    (o : options) (w : World σ η) (err : GoError) (fuel : Nat)
    (h : (iteration q js c o w).2 = Outcome.returned err) :
    loop q js c o (fuel + 1) w = iteration q js c o w := by
  unfold loop
  split
  · rename_i w1 hw1
    rw [hw1] at h
    simp at h
  · rename_i w1 err1 hw1
    rw [hw1]

theorem loop_handler_error (js : Json) (c : Caller η) (name : String)
    (o : options) (w : World Store η) (pre post : List Tuple)
    (x : Tuple) (mx : Msg) (E : Error) (fuel : Nat)
    (hctx : c.ctxErr w.env = none)
    (hbatch : (memRedis.ZRangeByScore w.store none name 0
      (float64 ((now w).Add o.PollPeriod).UnixNano)).2 = Except.ok (pre ++ x :: post))
    (hdec : ∀ y ∈ pre, ∃ v, js.Unmarshal y.Member = Except.ok v)
    (hpre : (handlerRun c w.env (pre.filterMap (decoded js))).2 = none)
    (hmx : decoded js x = some mx)
    (hx : (c.handler (handlerRun c w.env (pre.filterMap (decoded js))).1 mx).2 = some E) :
    (loop (New memRedis name) js c o (fuel + 1) w).2 = Outcome.returned (some E) ∧
    handled (loop (New memRedis name) js c o (fuel + 1) w).1.log
      = handled w.log ++ pre.filterMap (decoded js) ++ [mx] ∧
    removed (loop (New memRedis name) js c o (fuel + 1) w).1.log
      = removed w.log ++ pre.map Tuple.Member ∧
    (loop (New memRedis name) js c o (fuel + 1) w).1.store = removeAll name pre w.store := by
  have h := iteration_handler_error js c name o w pre post x mx E hctx hbatch hdec hpre hmx hx
  rw [loop_of_iteration_returned (New memRedis name) js c o w _ fuel h.1]
  exact h

/-- C3. Over the model store, in a pass of `Dequeue` that begins with a live
context and fetches the batch `pre ++ x :: post`, if the members of `pre` and `x`
decode, the handler returns nil on each entry of `pre` in turn and the error `E` on
`x`, then `Dequeue` returns exactly `E`; the handler was invoked on the entries of
`pre` and on `x`, in that order, and on no later entry; the entries of `pre`, and
no others, were removed and are no longer in the store; `x` and every entry of
`post` are still in the store with their scores. -/
theorem Dequeue_redelivery (js : Json) (c : Caller η) (name : String)
    (opts : List (options → options)) (w : World Store η) (pre post : List Tuple)
    (x : Tuple) (mx : Msg) (E : Error) (fuel : Nat)
    (hwf : UniqueMembers w.store)
    (hctx : c.ctxErr w.env = none)
    (hbatch : (memRedis.ZRangeByScore w.store none name 0
      (float64 ((now w).Add (applyOpts opts).PollPeriod).UnixNano)).2
        = Except.ok (pre ++ x :: post))
    (hdec : ∀ y ∈ pre, ∃ v, js.Unmarshal y.Member = Except.ok v)
    (hpre : (handlerRun c w.env (pre.filterMap (decoded js))).2 = none)
    (hmx : decoded js x = some mx)
    (hx : (c.handler (handlerRun c w.env (pre.filterMap (decoded js))).1 mx).2 = some E) :
    (Dequeue (New memRedis name) js c opts (fuel + 1) w).2 = Outcome.returned (some E) ∧
    handled (Dequeue (New memRedis name) js c opts (fuel + 1) w).1.log
      = handled w.log ++ pre.filterMap (decoded js) ++ [mx] ∧
    removed (Dequeue (New memRedis name) js c opts (fuel + 1) w).1.log
      = removed w.log ++ pre.map Tuple.Member ∧
    (Dequeue (New memRedis name) js c opts (fuel + 1) w).1.store
      = removeAll name pre w.store ∧
    (∀ y ∈ pre, ∀ e ∈ (Dequeue (New memRedis name) js c opts (fuel + 1) w).1.store,
      ¬ (e.key = name ∧ e.member = y.Member)) ∧
    (∀ y ∈ x :: post, ({ key := name, member := y.Member, score := y.Score } : Entry)
      ∈ (Dequeue (New memRedis name) js c opts (fuel + 1) w).1.store) := by
  obtain ⟨h1, h2, h3, hstore⟩ := loop_handler_error js c name (applyOpts opts) w pre post x mx E
    fuel hctx hbatch hdec hpre hmx hx
  have hnodup := range_members_nodup w.store hwf none name 0 _ _ hbatch
  unfold Dequeue
  refine ⟨h1, h2, h3, hstore, ?_, ?_⟩
  · intro y hy e he hcontra
    rw [hstore, mem_removeAll] at he
    have := he.2 y hy
    simp [Entry.isAt, hcontra.1, hcontra.2] at this
  · intro y hy
    rw [hstore, mem_removeAll]
    refine ⟨range_entry_mem w.store none name 0 _ _ hbatch y (List.mem_append_right _ hy), ?_⟩
    intro z hz
    rw [List.map_append, List.nodup_append] at hnodup
    have hne : z.Member ≠ y.Member := fun heq =>
      hnodup.2.2 (List.mem_map_of_mem _ hz) (heq ▸ List.mem_map_of_mem _ hy)
    simp [Entry.isAt, Ne.symm hne]

theorem Dequeue_redelivery_witness :
    (Dequeue (New memRedis "delayq") plainJson (stopAfter 2 EOF) [] (0 + 1) (testWorld 0 3)).2
      = Outcome.returned (some EOF) ∧
    handled (Dequeue (New memRedis "delayq") plainJson (stopAfter 2 EOF) [] (0 + 1) (testWorld 0 3)).1.log
      = handled (testWorld 0 3).log
        ++ [{ Member := [48, 0, 48], Score := 0 }].filterMap (decoded plainJson)
        ++ [makeMsg 0 1] ∧
    removed (Dequeue (New memRedis "delayq") plainJson (stopAfter 2 EOF) [] (0 + 1) (testWorld 0 3)).1.log
      = removed (testWorld 0 3).log ++ [{ Member := [48, 0, 48], Score := 0 }].map Tuple.Member ∧
    (Dequeue (New memRedis "delayq") plainJson (stopAfter 2 EOF) [] (0 + 1) (testWorld 0 3)).1.store
      = removeAll "delayq" [{ Member := [48, 0, 48], Score := 0 }] (testWorld 0 3).store ∧
    (∀ y ∈ [({ Member := [48, 0, 48], Score := 0 } : Tuple)],
      ∀ e ∈ (Dequeue (New memRedis "delayq") plainJson (stopAfter 2 EOF) [] (0 + 1)
          (testWorld 0 3)).1.store,
        ¬ (e.key = "delayq" ∧ e.member = y.Member)) ∧
    (∀ y ∈ ({ Member := [49, 0, 49], Score := 200000000 } : Tuple)
        :: [{ Member := [50, 0, 50], Score := 400000000 }],
      ({ key := "delayq", member := y.Member, score := y.Score } : Entry)
        ∈ (Dequeue (New memRedis "delayq") plainJson (stopAfter 2 EOF) [] (0 + 1)
            (testWorld 0 3)).1.store) :=
  Dequeue_redelivery plainJson (stopAfter 2 EOF) "delayq" [] (testWorld 0 3)
    [{ Member := [48, 0, 48], Score := 0 }] [{ Member := [50, 0, 50], Score := 400000000 }]
    { Member := [49, 0, 49], Score := 200000000 } (makeMsg 0 1) EOF 0
    (by unfold UniqueMembers; decide) rfl rfl (fun _ _ => ⟨_, rfl⟩) rfl rfl rfl

end Batch

/-! ## The order of the sorted set -/

section Order

theorem bytesLE_total : ∀ (a b : Bytes), bytesLE a b = true ∨ bytesLE b a = true := by
  intro a
  induction a with
  | nil => intro b; left; simp [bytesLE]
  | cons x xs ih =>
    intro b
    cases b with
    | nil => right; simp [bytesLE]
    | cons y ys =>
      simp only [bytesLE, Bool.or_eq_true, Bool.and_eq_true, decide_eq_true_eq]
      rcases Nat.lt_trichotomy x.toNat y.toNat with h | h | h
      · exact Or.inl (Or.inl h)
      · rcases ih ys with h' | h'
        · exact Or.inl (Or.inr ⟨h, h'⟩)
        · exact Or.inr (Or.inr ⟨h.symm, h'⟩)
      · exact Or.inr (Or.inl h)

theorem bytesLE_trans : ∀ (a b c : Bytes), bytesLE a b = true → bytesLE b c = true →
    bytesLE a c = true := by
  intro a
  induction a with
  | nil => intro b c _ _; simp [bytesLE]
  | cons x xs ih =>
    intro b c hab hbc
    cases b with
    | nil => simp [bytesLE] at hab
    | cons y ys =>
      cases c with
      | nil => simp [bytesLE] at hbc
      | cons z zs =>
        simp only [bytesLE, Bool.or_eq_true, Bool.and_eq_true, decide_eq_true_eq] at hab hbc ⊢
        rcases hab with h1 | ⟨h1, h1'⟩
        · rcases hbc with h2 | ⟨h2, _⟩
          · exact Or.inl (Nat.lt_trans h1 h2)
          · exact Or.inl (h2 ▸ h1)
        · rcases hbc with h2 | ⟨h2, h2'⟩
          · exact Or.inl (h1 ▸ h2)
          · exact Or.inr ⟨h1.trans h2, ih ys zs h1' h2'⟩

instance tupleLE_total : IsTotal Tuple tupleLE where
  total := by
    intro a b
    unfold tupleLE
    rcases lt_trichotomy a.Score b.Score with h | h | h
    · exact Or.inl (Or.inl h)
    · rcases bytesLE_total a.Member b.Member with h' | h'
      · exact Or.inl (Or.inr ⟨h, h'⟩)
      · exact Or.inr (Or.inr ⟨h.symm, h'⟩)
    · exact Or.inr (Or.inl h)

instance tupleLE_trans : IsTrans Tuple tupleLE where
  trans := by
    intro a b c hab hbc
    unfold tupleLE at hab hbc ⊢
    rcases hab with h1 | ⟨h1, h1'⟩
    · rcases hbc with h2 | ⟨h2, _⟩
      · exact Or.inl (lt_trans h1 h2)
      · exact Or.inl (h2 ▸ h1)
    · rcases hbc with h2 | ⟨h2, h2'⟩
      · exact Or.inl (h1 ▸ h2)
      · exact Or.inr ⟨h1.trans h2, bytesLE_trans _ _ _ h1' h2'⟩

theorem memRedis_range_queue (s : Store) (ctx : GoError) (name : String) (lo hi : Float64) :
    (memRedis.ZRangeByScore s ctx name lo hi).2
      = Except.ok (((queueTuples name s).filter
          (fun t => decide (lo ≤ t.Score) && decide (t.Score ≤ hi))).insertionSort tupleLE) := by
  simp only [memRedis, queueTuples, Except.ok.injEq]
  congr 1
  rw [List.filter_map, List.filter_filter]
  congr 1
  apply List.filter_congr
  intro e _
  simp [Entry.inRange, Entry.tuple, Bool.and_comm]

theorem queueTuples_zrem (s : Store) (ctx : GoError) (name : String) (m : Bytes) :
    queueTuples name (memRedis.ZRem s ctx name m).1
      = (queueTuples name s).filter (fun t => decide (t.Member ≠ m)) := by
  simp only [memRedis, queueTuples]
  rw [List.filter_map, List.filter_filter, List.filter_filter]
  congr 1
  apply List.filter_congr
  intro e _
  by_cases hk : e.key = name <;> simp [Entry.isAt, Entry.tuple, hk]

theorem queueTuples_removeAll (name : String) :
    ∀ (pre : List Tuple) (s : Store),
      queueTuples name (removeAll name pre s)
        = (queueTuples name s).filter (fun t => decide (∀ y ∈ pre, t.Member ≠ y.Member)) := by
  intro pre
  induction pre with
  | nil => intro s; simp [removeAll]
  | cons y pre ih =>
    intro s
    have h : removeAll name (y :: pre) s
        = removeAll name pre (memRedis.ZRem s none name y.Member).1 := rfl
    rw [h, ih, queueTuples_zrem, List.filter_filter]
    apply List.filter_congr
    intro t _
    simp [Bool.and_comm]

end Order

/-! ## Admission of a list of messages -/

section AdmitAll

variable {η : Type}

theorem memberOf_eq (js : Json) (m : Msg) (b : Bytes)
    (hb : js.Marshal m.ID m.Data = Except.ok b) : memberOf js m = b := by
  simp [memberOf, hb]

theorem any_isAt_iff (name : String) (b : Bytes) (s : Store) :
    s.any (Entry.isAt name b) = true ↔ b ∈ (queueTuples name s).map Tuple.Member := by
  simp only [List.any_eq_true, queueTuples, List.mem_map, List.mem_filter, decide_eq_true_eq,
    Entry.isAt, Bool.and_eq_true]
  constructor
  · rintro ⟨e, he, hk, hm⟩
    exact ⟨e.tuple, ⟨e, ⟨he, hk⟩, rfl⟩, hm⟩
  · rintro ⟨t, ⟨e, ⟨he, hk⟩, rfl⟩, hm⟩
    exact ⟨e, he, hk, hm⟩

theorem addAll_queue (js : Json) (name : String) :
    ∀ (adm : List Msg) (w : World Store η),
      (∀ m ∈ adm, ∃ b, js.Marshal m.ID m.Data = Except.ok b) →
      (∀ e ∈ (addAll (New memRedis name) js adm w).2, e = none) →
      ((queueTuples name w.store).map Tuple.Member).Nodup →
      queueTuples name (addAll (New memRedis name) js adm w).1.store
        = queueTuples name w.store ++ adm.map (tupleOf js) ∧
      ((queueTuples name (addAll (New memRedis name) js adm w).1.store).map Tuple.Member).Nodup ∧
      (addAll (New memRedis name) js adm w).1.clock = w.clock ∧
      (addAll (New memRedis name) js adm w).1.env = w.env ∧
      handled (addAll (New memRedis name) js adm w).1.log = handled w.log := by
  intro adm
  induction adm with
  | nil => intro w _ _ hnd; exact ⟨by simp [addAll], hnd, rfl, rfl, rfl⟩
  | cons m adm ih =>
    intro w hmar hnil hnd
    obtain ⟨b, hb⟩ := hmar m (List.mem_cons_self _ _)
    have h1 := AddMsg_memRedis name js none m w b hb
    have hnil1 : (AddMsg (New memRedis name) js none m w).2 = none :=
      hnil _ (by simp [addAll])
    by_cases hany : w.store.any (Entry.isAt name b) = true
    · rw [h1, if_pos hany] at hnil1
      simp at hnil1
    · rw [if_neg hany] at h1
      have hnotin : b ∉ (queueTuples name w.store).map Tuple.Member :=
        fun h => hany ((any_isAt_iff name b w.store).mpr h)
      have hq : queueTuples name
          (w.store ++
            [({ key := name, member := b, score := float64 m.Deadline.UnixNano } : Entry)])
          = queueTuples name w.store ++ [tupleOf js m] := by
        simp [queueTuples, List.filter_append, Entry.tuple, tupleOf, Msg.score,
          memberOf_eq js m b hb]
      obtain ⟨i1, i2, i3, i4, i5⟩ := ih (AddMsg (New memRedis name) js none m w).1
        (fun m' hm' => hmar m' (List.mem_cons_of_mem _ hm'))
        (fun e he => hnil e (by simp only [addAll]; exact List.mem_cons_of_mem _ he))
        (by
          rw [h1]
          simp only [hq, List.map_append, List.map_cons, List.map_nil]
          rw [List.nodup_append]
          refine ⟨hnd, by simp, ?_⟩
          intro x hx1 hx2
          simp only [List.mem_singleton] at hx2
          subst hx2
          simp only [tupleOf, memberOf_eq js m b hb] at hx1
          exact hnotin hx1)
      simp only [addAll]
      refine ⟨?_, i2, ?_, ?_, ?_⟩
      · rw [i1, h1]
        simp only [hq, List.map_cons, List.append_assoc, List.singleton_append]
      · rw [i3, h1]
      · rw [i4, h1]
      · rw [i5, h1]
        simp [handled]

end AdmitAll

/-! ## Batches of a queue with increasing deadlines -/

section Sorted

theorem eq_of_score_eq : ∀ (L : List Tuple), L.Pairwise (fun a b => a.Score < b.Score) →
    ∀ a ∈ L, ∀ b ∈ L, a.Score = b.Score → a = b := by
  intro L
  induction L with
  | nil => intro _ a ha; simp at ha
  | cons x L ih =>
    intro hp a ha b hb hab
    rw [List.pairwise_cons] at hp
    rcases List.mem_cons.mp ha with rfl | ha'
    · rcases List.mem_cons.mp hb with rfl | hb'
      · rfl
      · exact absurd hab (ne_of_lt (hp.1 b hb'))
    · rcases List.mem_cons.mp hb with rfl | hb'
      · exact absurd hab.symm (ne_of_lt (hp.1 a ha'))
      · exact ih hp.2 a ha' b hb' hab

theorem tupleLE_antisymm_score (a b : Tuple) (h1 : tupleLE a b) (h2 : tupleLE b a) :
    a.Score = b.Score := by
  unfold tupleLE at h1 h2
  rcases h1 with h1 | ⟨h1, _⟩
  · rcases h2 with h2 | ⟨h2, _⟩
    · exact absurd h1 (not_lt_of_gt h2)
    · exact h2.symm
  · exact h1

/-- A range query over a queue whose scores are distinct returns the entries in
range in the order of their scores. -/
theorem sort_filter_eq (T L : List Tuple) (hL : L.Pairwise (fun a b => a.Score < b.Score))
    (hperm : T.Perm L) (P : Tuple → Bool) :
    (T.filter P).insertionSort tupleLE = L.filter P := by
  have hLP : (L.filter P).Pairwise (fun a b => a.Score < b.Score) := List.Pairwise.filter _ hL
  refine List.Perm.eq_of_sorted ?_ (List.sorted_insertionSort tupleLE _)
    (hLP.imp (fun h => Or.inl h)) ((List.perm_insertionSort tupleLE _).trans (hperm.filter P))
  intro a b ha hb hab hba
  have ha' : a ∈ L.filter P :=
    ((List.perm_insertionSort tupleLE _).trans (hperm.filter P)).mem_iff.mp ha
  exact eq_of_score_eq _ hLP a ha' b hb (tupleLE_antisymm_score a b hab hba)

theorem filter_split : ∀ (L : List Msg), L.Pairwise (fun a b => a.score < b.score) →
    ∀ (B : Float64), L = L.filter (fun m => decide (m.score ≤ B))
      ++ L.filter (fun m => !decide (m.score ≤ B)) := by
  intro L
  induction L with
  | nil => intro _ _; rfl
  | cons x L ih =>
    intro hp B
    rw [List.pairwise_cons] at hp
    by_cases hx : x.score ≤ B
    · simp only [List.filter_cons, hx, decide_True, if_true, Bool.not_true, Bool.false_eq_true,
        if_false, List.cons_append]
      rw [← ih hp.2 B]
    · have hall : ∀ m ∈ L, ¬ m.score ≤ B := fun m hm h =>
        hx (le_trans (le_of_lt (hp.1 m hm)) h)
      have h1 : L.filter (fun m => decide (m.score ≤ B)) = [] := by
        rw [List.filter_eq_nil_iff]
        intro m hm
        simpa using hall m hm
      have h2 : L.filter (fun m => !decide (m.score ≤ B)) = L := by
        rw [List.filter_eq_self]
        intro m hm
        simpa using hall m hm
      simp [List.filter_cons, hx, h1, h2]

theorem filter_members (js : Json) (X Y : List Msg)
    (hnd : ((X ++ Y).map (memberOf js)).Nodup) :
    ((X ++ Y).map (tupleOf js)).filter
        (fun t => decide (∀ y ∈ X.map (tupleOf js), t.Member ≠ y.Member))
      = Y.map (tupleOf js) := by
  rw [List.map_append, List.nodup_append] at hnd
  rw [List.map_append, List.filter_append]
  have h1 : (X.map (tupleOf js)).filter
      (fun t => decide (∀ y ∈ X.map (tupleOf js), t.Member ≠ y.Member)) = [] := by
    rw [List.filter_eq_nil_iff]
    intro t ht
    simp only [decide_eq_true_eq, not_forall]
    exact ⟨t, ht, fun h => h rfl⟩
  have h2 : (Y.map (tupleOf js)).filter
      (fun t => decide (∀ y ∈ X.map (tupleOf js), t.Member ≠ y.Member)) = Y.map (tupleOf js) := by
    rw [List.filter_eq_self]
    intro t ht
    simp only [decide_eq_true_eq]
    intro y hy heq
    obtain ⟨m, hm, rfl⟩ := List.mem_map.mp ht
    obtain ⟨m', hm', rfl⟩ := List.mem_map.mp hy
    exact hnd.2.2 (List.mem_map_of_mem _ hm') (by
      have : memberOf js m = memberOf js m' := heq
      rw [← this]
      exact List.mem_map_of_mem _ hm)
  rw [h1, h2, List.nil_append]

end Sorted

/-! ## The delivery-order scenario -/

section DeliveryOrder

variable {η : Type}

theorem decoded_tupleOf (js : Json) (m : Msg)
    (h : ∃ b, js.Marshal m.ID m.Data = Except.ok b ∧ js.Unmarshal b = Except.ok (m.ID, m.Data)) :
    decoded js (tupleOf js m) = some (delivered m) := by
  obtain ⟨b, hb, hu⟩ := h
  simp [decoded, tupleOf, delivered, memberOf_eq js m b hb, hu]

theorem filterMap_decoded (js : Json) :
    ∀ (L : List Msg), (∀ m ∈ L, ∃ b, js.Marshal m.ID m.Data = Except.ok b ∧
        js.Unmarshal b = Except.ok (m.ID, m.Data)) →
      (L.map (tupleOf js)).filterMap (decoded js) = L.map delivered := by
  intro L
  induction L with
  | nil => intro _; rfl
  | cons m L ih =>
    intro h
    simp only [List.map_cons, List.filterMap_cons,
      decoded_tupleOf js m (h m (List.mem_cons_self _ _))]
    rw [ih (fun m' hm' => h m' (List.mem_cons_of_mem _ hm'))]

theorem unmarshal_tupleOf (js : Json) (L : List Msg)
    (h : ∀ m ∈ L, ∃ b, js.Marshal m.ID m.Data = Except.ok b ∧
      js.Unmarshal b = Except.ok (m.ID, m.Data)) :
    ∀ y ∈ L.map (tupleOf js), ∃ v, js.Unmarshal y.Member = Except.ok v := by
  intro y hy
  obtain ⟨m, hm, rfl⟩ := List.mem_map.mp hy
  obtain ⟨b, hb, hu⟩ := h m hm
  exact ⟨_, by simp only [tupleOf, memberOf_eq js m b hb]; exact hu⟩

theorem handlerRun_none_left (c : Caller η) :
    ∀ (l₁ l₂ : List Msg) (e : η), (handlerRun c e (l₁ ++ l₂)).2 = none →
      (handlerRun c e l₁).2 = none := by
  intro l₁
  induction l₁ with
  | nil => intro _ _ _; rfl
  | cons m l₁ ih =>
    intro l₂ e h
    simp only [handlerRun, List.cons_append] at h ⊢
    split at h
    · simp at h
    · exact ih l₂ _ h

/-- The batch of a pass of the scenario: the pending messages whose score is not
above the upper bound `B` of the range query, in the order of their scores. -/
theorem batch_eq (js : Json) (name : String) (s : Store) (L : List Msg) (B : Float64)
    (hsorted : L.Pairwise (fun a b => a.score < b.score))
    (hnonneg : ∀ m ∈ L, 0 ≤ m.score)
    (hperm : (queueTuples name s).Perm (L.map (tupleOf js))) :
    (memRedis.ZRangeByScore s none name 0 B).2
      = Except.ok ((L.filter (fun m => decide (m.score ≤ B))).map (tupleOf js)) := by
  rw [memRedis_range_queue]
  congr 1
  rw [sort_filter_eq _ (L.map (tupleOf js)) ?_ hperm, List.filter_map]
  · congr 1
    apply List.filter_congr
    intro m hm
    have := hnonneg m hm
    simp [tupleOf, this]
  · exact List.Pairwise.map _ (fun a b hab => by simpa [tupleOf] using hab) hsorted

theorem Scenario.pending_sorted {js : Json} {c : Caller η} {e0 : η} {init : List Msg}
    {last : Msg} {E : Error} (sc : Scenario js c e0 init last E) (done rem : List Msg)
    (h : init = done ++ rem) :
    (rem ++ [last]).Pairwise (fun a b => a.score < b.score) ∧
    (∀ m ∈ rem ++ [last], 0 ≤ m.score) ∧
    (∀ m ∈ rem ++ [last], ∃ b, js.Marshal m.ID m.Data = Except.ok b ∧
      js.Unmarshal b = Except.ok (m.ID, m.Data)) ∧
    ((rem ++ [last]).map (memberOf js)).Nodup := by
  have hsub : (rem ++ [last]).Sublist (init ++ [last]) := by
    rw [h, List.append_assoc]
    exact List.sublist_append_right _ _
  have hmem : ∀ m ∈ rem ++ [last], m ∈ init ++ [last] := fun m hm => hsub.subset hm
  exact ⟨sc.sorted.sublist hsub, fun m hm => sc.nonneg m (hmem m hm),
    fun m hm => sc.round m (hmem m hm), sc.distinct.sublist (hsub.map _)⟩

theorem Scenario.run_split {js : Json} {c : Caller η} {e0 : η} {init : List Msg}
    {last : Msg} {E : Error} (sc : Scenario js c e0 init last E) (done A R : List Msg)
    (h : init = done ++ (A ++ R)) :
    handlerRun c (handlerRun c e0 (done.map delivered)).1 (A.map delivered)
      = handlerRun c e0 ((done ++ A).map delivered) ∧
    (handlerRun c e0 ((done ++ A).map delivered)).2 = none := by
  have h1 : (handlerRun c e0 ((done ++ A).map delivered)).2 = none := by
    apply handlerRun_none_left c ((done ++ A).map delivered) (R.map delivered)
    rw [← List.map_append, List.append_assoc, ← h]
    exact sc.ok
  have h0 : (handlerRun c e0 (done.map delivered)).2 = none := by
    rw [List.map_append] at h1
    exact handlerRun_none_left c (done.map delivered) (A.map delivered) e0 h1
  rw [List.map_append] at h1 ⊢
  exact ⟨(handlerRun_append c (done.map delivered) (A.map delivered) e0 h0).symm, h1⟩

/-- The pass in which the last message is fetched ends the run. -/
theorem final_pass (js : Json) (c : Caller η) (name : String) (o : options) (e0 : η)
    (H0 init : List Msg) (last : Msg) (E : Error) (sc : Scenario js c e0 init last E)
    (done rem : List Msg) (w : World Store η)
    (hP : Pending js c name e0 H0 init last done rem w)
    (hB : last.score ≤ float64 ((now w).Add o.PollPeriod).UnixNano) (fuel : Nat) :
    (loop (New memRedis name) js c o (fuel + 1) w).2 = Outcome.returned (some E) ∧
    handled (loop (New memRedis name) js c o (fuel + 1) w).1.log
      = H0 ++ (init ++ [last]).map delivered ∧
    queueTuples name (loop (New memRedis name) js c o (fuel + 1) w).1.store
      = [tupleOf js last] := by
  obtain ⟨hinit, hperm, henv, hlog⟩ := hP
  obtain ⟨hsorted, hnonneg, hround, hnodup⟩ := sc.pending_sorted done rem hinit
  have hall : (rem ++ [last]).filter
      (fun m => decide (m.score ≤ float64 ((now w).Add o.PollPeriod).UnixNano))
      = rem ++ [last] := by
    rw [List.filter_eq_self]
    intro m hm
    simp only [decide_eq_true_eq]
    rcases List.mem_append.mp hm with hm | hm
    · have := (List.pairwise_append.mp hsorted).2.2 m hm last (List.mem_singleton.mpr rfl)
      exact le_trans (le_of_lt this) hB
    · rw [List.mem_singleton.mp hm]
      exact hB
  have hbatch := batch_eq js name w.store (rem ++ [last])
    (float64 ((now w).Add o.PollPeriod).UnixNano) hsorted hnonneg hperm
  rw [hall, List.map_append, List.map_singleton] at hbatch
  have hrun := sc.run_split done rem [] (by rw [List.append_nil]; exact hinit)
  have hfm : (rem.map (tupleOf js)).filterMap (decoded js) = rem.map delivered :=
    filterMap_decoded js rem (fun m hm => hround m (List.mem_append_left _ hm))
  obtain ⟨h1, h2, _, h4⟩ := loop_handler_error js c name o w (rem.map (tupleOf js)) []
    (tupleOf js last) (delivered last) E fuel (sc.live _) hbatch
    (unmarshal_tupleOf js rem (fun m hm => hround m (List.mem_append_left _ hm)))
    (by rw [hfm, henv, hrun.1]; exact hrun.2)
    (decoded_tupleOf js last (hround last (List.mem_append_right _ (List.mem_singleton.mpr rfl))))
    (by rw [hfm, henv, hrun.1, ← hinit]; exact sc.err)
  refine ⟨h1, ?_, ?_⟩
  · rw [h2, hfm, hlog, hinit]
    simp only [List.map_append, List.map_cons, List.map_nil, List.append_assoc]
  · rw [h4, queueTuples_removeAll]
    have hp2 := hperm.filter
      (fun t => decide (∀ y ∈ rem.map (tupleOf js), t.Member ≠ y.Member))
    rw [filter_members js rem [last] hnodup] at hp2
    exact List.perm_singleton.mp hp2

/-- A pass in which the last message is not fetched delivers and removes the
pending messages it fetches and ends at `nextPoll`. -/
theorem progress_pass (js : Json) (c : Caller η) (name : String) (o : options) (e0 : η)
    (H0 init : List Msg) (last : Msg) (E : Error) (sc : Scenario js c e0 init last E)
    (done rem : List Msg) (w : World Store η)
    (hP : Pending js c name e0 H0 init last done rem w)
    (hB : float64 ((now w).Add o.PollPeriod).UnixNano < last.score) :
    ∃ w' A R, iteration (New memRedis name) js c o w = (w', Outcome.running) ∧
      Pending js c name e0 H0 init last (done ++ A) R w' ∧
      w'.clock = (now w).Add o.PollPeriod := by
  obtain ⟨hinit, hperm, henv, hlog⟩ := hP
  obtain ⟨hsorted, hnonneg, hround, hnodup⟩ := sc.pending_sorted done rem hinit
  have hsplit := filter_split rem (List.pairwise_append.mp hsorted).1
    (float64 ((now w).Add o.PollPeriod).UnixNano)
  generalize hA : rem.filter
    (fun m => decide (m.score ≤ float64 ((now w).Add o.PollPeriod).UnixNano)) = A at hsplit
  generalize hR : rem.filter
    (fun m => !decide (m.score ≤ float64 ((now w).Add o.PollPeriod).UnixNano)) = R at hsplit
  have hfilter : (rem ++ [last]).filter
      (fun m => decide (m.score ≤ float64 ((now w).Add o.PollPeriod).UnixNano)) = A := by
    have hlast : decide (last.score ≤ float64 ((now w).Add o.PollPeriod).UnixNano) = false :=
      decide_eq_false (not_le.mpr hB)
    rw [List.filter_append, hA, List.filter_cons, hlast]
    simp only [Bool.false_eq_true, if_false, List.filter_nil, List.append_nil]
  have hbatch := batch_eq js name w.store (rem ++ [last])
    (float64 ((now w).Add o.PollPeriod).UnixNano) hsorted hnonneg hperm
  rw [hfilter] at hbatch
  have hroundA : ∀ m ∈ A, ∃ b, js.Marshal m.ID m.Data = Except.ok b ∧
      js.Unmarshal b = Except.ok (m.ID, m.Data) := fun m hm =>
    hround m (List.mem_append_left _ (by rw [hsplit]; exact List.mem_append_left _ hm))
  have hfm : (A.map (tupleOf js)).filterMap (decoded js) = A.map delivered :=
    filterMap_decoded js A hroundA
  have hrun := sc.run_split done A R (by rw [← hsplit]; exact hinit)
  obtain ⟨w', hd, henv', hstore', hh', _, _, _⟩ := deliver_prefix js c name
    (A.map (tupleOf js)) []
    { w with log := w.log ++ [Event.zrange name 0
        (float64 ((now w).Add o.PollPeriod).UnixNano) (A.map (tupleOf js))] }
    (unmarshal_tupleOf js A hroundA)
    (by simp only [hfm, henv, hrun.1]; exact hrun.2)
  simp only [List.append_nil] at hd
  simp only at henv' hstore' hh'
  have hiter : iteration (New memRedis name) js c o w
      = (sleep (((now w).Add o.PollPeriod).Sub (now w')) w', Outcome.running) := by
    unfold iteration
    simp only [sc.live]
    have hb : ((New memRedis name).cl.ZRangeByScore w.store none (New memRedis name).name 0
      (float64 ((now w).Add o.PollPeriod).UnixNano)).2
        = Except.ok (A.map (tupleOf js)) := hbatch
    simp only [hb]
    have hd' : deliver (New memRedis name) js c (A.map (tupleOf js))
        { w with store := ((New memRedis name).cl.ZRangeByScore w.store none
                    (New memRedis name).name 0
                    (float64 ((now w).Add o.PollPeriod).UnixNano)).1,
                 log := w.log ++ [Event.zrange (New memRedis name).name 0
                    (float64 ((now w).Add o.PollPeriod).UnixNano) (A.map (tupleOf js))] }
        = (w', Outcome.running) := by
      rw [← (show deliver (New memRedis name) js c [] w' = (w', Outcome.running) from rfl), ← hd]
      rfl
    rw [hd']
  refine ⟨_, A, R, hiter, ⟨?_, ?_, ?_, ?_⟩, ?_⟩
  · rw [hinit, hsplit, List.append_assoc]
  · have hp2 := hperm.filter
      (fun t => decide (∀ y ∈ A.map (tupleOf js), t.Member ≠ y.Member))
    have hnd : ((A ++ (R ++ [last])).map (memberOf js)).Nodup := by
      rw [← List.append_assoc, ← hsplit]
      exact hnodup
    rw [hsplit, List.append_assoc, filter_members js A (R ++ [last]) hnd] at hp2
    simp only [sleep]
    rw [hstore', queueTuples_removeAll]
    exact hp2
  · simp only [sleep]
    rw [henv', hfm, henv, hrun.1]
  · simp only [sleep, handled_append, handled, List.append_nil]
    rw [hh', hfm]
    simp only [handled_append, handled, List.append_nil, hlog, List.append_assoc,
      List.map_append]
  · simp only [sleep, now, Time.Add, Time.Sub]
    linarith

/-- A message whose deadline, as `UnixNano`, is not after a time in the range of
`int64` nanoseconds has a score that is not above the score of that time. -/
theorem due_of_le (last : Msg) (t : Time) (hlo : -2 ^ 63 ≤ t) (hhi : t < 2 ^ 63)
    (h : last.Deadline.UnixNano ≤ t) : last.score ≤ float64 t.UnixNano := by
  unfold Msg.score
  have ht : Time.UnixNano t = t := wrap64_of_range t hlo hhi
  rw [ht]
  exact float64_mono _ _ h

theorem pollBound_zero (t0 : Time) (p : Duration) :
    pollBound t0 p 0 = float64 (t0.Add p).UnixNano := by
  simp [pollBound]

theorem pollBound_succ (t0 : Time) (p : Duration) (K : Nat) :
    pollBound t0 p (K + 1) = pollBound (t0.Add p) p K := by
  unfold pollBound
  congr 2
  simp only [Time.Add]
  push_cast
  ring

/-- A run of the scenario in which the poll window of some pass reaches the score
of the last message returns the error of the last delivery, after delivering every
message in the order of the scores, and leaves the last entry in the queue. -/
theorem scenario_run (js : Json) (c : Caller η) (name : String) (o : options) (e0 : η)
    (H0 init : List Msg) (last : Msg) (E : Error) (sc : Scenario js c e0 init last E) :
    ∀ (K : Nat) (done rem : List Msg) (w : World Store η),
      Pending js c name e0 H0 init last done rem w →
      last.score ≤ pollBound w.clock o.PollPeriod K →
      ∃ fuel, ∀ k,
        (loop (New memRedis name) js c o (fuel + k) w).2 = Outcome.returned (some E) ∧
        handled (loop (New memRedis name) js c o (fuel + k) w).1.log
          = H0 ++ (init ++ [last]).map delivered ∧
        queueTuples name (loop (New memRedis name) js c o (fuel + k) w).1.store
          = [tupleOf js last] := by
  intro K
  induction K with
  | zero =>
    intro done rem w hP hK
    rw [pollBound_zero] at hK
    exact ⟨1, fun k => by
      rw [Nat.add_comm]
      exact final_pass js c name o e0 H0 init last E sc done rem w hP hK k⟩
  | succ K ih =>
    intro done rem w hP hK
    by_cases hB : last.score ≤ float64 ((now w).Add o.PollPeriod).UnixNano
    · exact ⟨1, fun k => by
        rw [Nat.add_comm]
        exact final_pass js c name o e0 H0 init last E sc done rem w hP hB k⟩
    · obtain ⟨w', A, R, hiter, hP', hclock⟩ :=
        progress_pass js c name o e0 H0 init last E sc done rem w hP (not_le.mp hB)
      rw [pollBound_succ] at hK
      obtain ⟨fuel, hfuel⟩ := ih (done ++ A) R w' hP' (by rw [hclock]; exact hK)
      refine ⟨fuel + 1, fun k => ?_⟩
      have hloop : loop (New memRedis name) js c o (fuel + 1 + k) w
          = loop (New memRedis name) js c o (fuel + k) w' := by
        have : fuel + 1 + k = (fuel + k) + 1 := by omega
        rw [this]
        conv_lhs => unfold loop
        simp only [hiter]
      rw [hloop]
      exact hfuel k

/-- A run of the scenario in which the poll window of no pass reaches the score of
the last message does not return: every pass delivers the pending messages it
fetches and runs to its end, the last message staying in the queue. -/
theorem scenario_stuck (js : Json) (c : Caller η) (name : String) (o : options) (e0 : η)
    (H0 init : List Msg) (last : Msg) (E : Error) (sc : Scenario js c e0 init last E) :
    ∀ (fuel : Nat) (done rem : List Msg) (w : World Store η),
      Pending js c name e0 H0 init last done rem w →
      (∀ K, pollBound w.clock o.PollPeriod K < last.score) →
      (loop (New memRedis name) js c o fuel w).2 = Outcome.running ∧
      ∃ done' rem', Pending js c name e0 H0 init last done' rem'
        (loop (New memRedis name) js c o fuel w).1 := by
  intro fuel
  induction fuel with
  | zero => intro done rem w hP _; exact ⟨rfl, done, rem, hP⟩
  | succ n ih =>
    intro done rem w hP hK
    have hB : float64 ((now w).Add o.PollPeriod).UnixNano < last.score := by
      have := hK 0
      rwa [pollBound_zero] at this
    obtain ⟨w', A, R, hiter, hP', hclock⟩ :=
      progress_pass js c name o e0 H0 init last E sc done rem w hP hB
    have hloop : loop (New memRedis name) js c o (n + 1) w
        = loop (New memRedis name) js c o n w' := by
      conv_lhs => unfold loop
      simp only [hiter]
    rw [hloop]
    exact ih (done ++ A) R w' hP' (fun K => by
      have := hK (K + 1)
      rw [pollBound_succ] at this
      rw [hclock]
      exact this)

/-- With a positive poll period, the start time plus the poll period and the
deadline plus the poll period being in the range of `int64` nanoseconds, the poll
window of some pass reaches the score of the deadline. -/
theorem cover_of_range (last : Msg) (t0 : Time) (p : Duration) (hp : 0 < p)
    (hlo : -2 ^ 63 ≤ t0.Add p) (hhi : t0.Add p < 2 ^ 63)
    (hlast : last.Deadline.UnixNano + p ≤ 2 ^ 63) :
    ∃ K, last.score ≤ pollBound t0 p K := by
  simp only [Time.Add] at hlo hhi
  by_cases h0 : last.Deadline.UnixNano ≤ t0 + p
  · exact ⟨0, by rw [pollBound_zero]; exact due_of_le last _ hlo hhi h0⟩
  · have hn : 0 < last.Deadline.UnixNano - (t0 + p) := by linarith
    have h1 : (last.Deadline.UnixNano - (t0 + p) + p - 1) / p * p
        ≤ last.Deadline.UnixNano - (t0 + p) + p - 1 := Int.ediv_mul_le _ (ne_of_gt hp)
    have h2 : last.Deadline.UnixNano - (t0 + p) + p - 1
        < ((last.Deadline.UnixNano - (t0 + p) + p - 1) / p + 1) * p :=
      Int.lt_ediv_add_one_mul_self _ hp
    have hq : 0 ≤ (last.Deadline.UnixNano - (t0 + p) + p - 1) / p :=
      Int.ediv_nonneg (by linarith) (le_of_lt hp)
    refine ⟨((last.Deadline.UnixNano - (t0 + p) + p - 1) / p).toNat, ?_⟩
    unfold pollBound
    simp only [Time.Add, Int.toNat_of_nonneg hq]
    apply due_of_le last _ (by nlinarith) (by nlinarith)
    nlinarith

/-- The world in which the messages were admitted is the start of a run of the
scenario. -/
theorem admitted_run (js : Json) (c : Caller η) (name : String)
    (init : List Msg) (last : Msg) (adm : List Msg)
    (w0 : World Store η) (E : Error)
    (hsorted : (init ++ [last]).Pairwise (fun a b => a.score < b.score))
    (hnonneg : ∀ m ∈ init ++ [last], 0 ≤ m.score)
    (hround : ∀ m ∈ init ++ [last], ∃ b, js.Marshal m.ID m.Data = Except.ok b ∧
      js.Unmarshal b = Except.ok (m.ID, m.Data))
    (hempty : ∀ e ∈ w0.store, e.key ≠ name)
    (hperm : adm.Perm (init ++ [last]))
    (hadm : ∀ e ∈ (addAll (New memRedis name) js adm w0).2, e = none)
    (hctx : ∀ e, c.ctxErr e = none)
    (hok : (handlerRun c w0.env (init.map delivered)).2 = none)
    (herr : (c.handler (handlerRun c w0.env (init.map delivered)).1 (delivered last)).2
      = some E) :
    Scenario js c w0.env init last E ∧
    Pending js c name w0.env (handled w0.log) init last [] init
      (addAll (New memRedis name) js adm w0).1 ∧
    (addAll (New memRedis name) js adm w0).1.clock = w0.clock := by
  have hq0 : queueTuples name w0.store = [] := by
    simp only [queueTuples, List.map_eq_nil_iff, List.filter_eq_nil_iff, decide_eq_true_eq]
    exact hempty
  obtain ⟨a1, a2, a3, a4, a5⟩ := addAll_queue js name adm w0
    (fun m hm => by
      obtain ⟨b, hb, _⟩ := hround m (hperm.mem_iff.mp hm)
      exact ⟨b, hb⟩)
    hadm (by rw [hq0]; exact List.nodup_nil)
  rw [hq0, List.nil_append] at a1
  exact ⟨{ sorted := hsorted
           nonneg := hnonneg
           round := hround
           distinct := by
             rw [a1, List.map_map] at a2
             exact (hperm.map (memberOf js)).nodup_iff.mp a2
           live := hctx
           ok := hok
           err := herr },
    ⟨rfl, by rw [a1]; exact hperm.map _, a4, by rw [a5, List.map_nil, List.append_nil]⟩, a3⟩

/-- A pass over a queue none of whose entries has a score within the bounds of the
range query, at this pass and at every later one, fetches nothing; so a run of
such passes invokes the handler on no message and does not return. -/
theorem loop_idle (js : Json) (c : Caller η) (name : String) (o : options)
    (hctx : ∀ e, c.ctxErr e = none) :
    ∀ (fuel : Nat) (w : World Store η),
      (∀ (K : Nat), ∀ e ∈ w.store, e.key = name → 0 ≤ e.score →
        ¬ e.score ≤ pollBound w.clock o.PollPeriod K) →
      (loop (New memRedis name) js c o fuel w).2 = Outcome.running ∧
      handled (loop (New memRedis name) js c o fuel w).1.log = handled w.log ∧
      (loop (New memRedis name) js c o fuel w).1.store = w.store := by
  intro fuel
  induction fuel with
  | zero => intro w _; exact ⟨rfl, rfl, rfl⟩
  | succ n ih =>
    intro w hno
    have hempty : (memRedis.ZRangeByScore w.store none name 0
        (float64 ((now w).Add o.PollPeriod).UnixNano)).2 = Except.ok [] := by
      have hf : w.store.filter (Entry.inRange name 0
          (float64 ((now w).Add o.PollPeriod).UnixNano)) = [] := by
        rw [List.filter_eq_nil_iff]
        intro e he hin
        simp only [Entry.inRange, Bool.and_eq_true, decide_eq_true_eq] at hin
        obtain ⟨hk, h0, h2⟩ := hin
        apply hno 0 e he hk h0
        rw [pollBound_zero]
        exact h2
      simp only [memRedis, hf, List.map_nil, List.insertionSort]
    have hiter : iteration (New memRedis name) js c o w
        = (sleep (((now w).Add o.PollPeriod).Sub (now w))
            { w with log := w.log ++ [Event.zrange name 0
                (float64 ((now w).Add o.PollPeriod).UnixNano) []] }, Outcome.running) := by
      unfold iteration
      simp only [hctx]
      have hb : ((New memRedis name).cl.ZRangeByScore w.store none (New memRedis name).name 0
        (float64 ((now w).Add o.PollPeriod).UnixNano)).2 = Except.ok [] := hempty
      simp only [hb]
      rfl
    have hloop : loop (New memRedis name) js c o (n + 1) w
        = loop (New memRedis name) js c o n
            (sleep (((now w).Add o.PollPeriod).Sub (now w))
              { w with log := w.log ++ [Event.zrange name 0
                (float64 ((now w).Add o.PollPeriod).UnixNano) []] }) := by
      conv_lhs => unfold loop
      simp only [hiter]
    rw [hloop]
    obtain ⟨i1, i2, i3⟩ := ih
      (sleep (((now w).Add o.PollPeriod).Sub (now w))
        { w with log := w.log ++ [Event.zrange name 0
          (float64 ((now w).Add o.PollPeriod).UnixNano) []] })
      (by
        intro K e he hk h0
        have := hno (K + 1) e he hk h0
        rw [pollBound_succ] at this
        have hc : (sleep (((now w).Add o.PollPeriod).Sub (now w))
            { w with log := w.log ++ [Event.zrange name 0
              (float64 ((now w).Add o.PollPeriod).UnixNano) []] }).clock
            = w.clock.Add o.PollPeriod := by
          simp only [sleep, now, Time.Add, Time.Sub]
          ring
        rw [hc]
        exact this)
    refine ⟨i1, ?_, ?_⟩
    · rw [i2]
      simp [sleep, handled]
    · rw [i3]
      rfl

/-- C1, as amended. Messages whose scores (`float64` of the `UnixNano` of the
deadline) are strictly increasing and not negative, with IDs and data that the
encoding reads back as written, admitted with `AddMsg` in any order into an empty
queue of the model store, are delivered by a single run of `Dequeue` under the
virtual clock in the order of their deadlines, with a context that is never
cancelled and a handler that returns nil on every message but the last and an
error on the last. When the poll window of some pass reaches the score of the last
message, `Dequeue` returns that error once it has enough fuel, and the handler has
then been invoked exactly once per message, the `i`-th invocation receiving the ID
and the data of the message with the `i`-th deadline (with the instant of its
score as deadline), however many poll windows the deadlines span. Some poll window
does reach that score when the poll period is positive and the start time plus the
poll period and the last deadline plus the poll period are in the range of `int64`
nanoseconds. When no poll window reaches it, `Dequeue` never returns, and the
handler has been invoked on a part of the other messages only. -/
theorem Dequeue_delivery_order {η : Type} (js : Json) (c : Caller η) (name : String)
    (opts : List (options → options)) (init : List Msg) (last : Msg) (adm : List Msg)
    (w0 : World Store η) (E : Error)
    (hsorted : (init ++ [last]).Pairwise (fun a b => a.score < b.score))
    (hnonneg : ∀ m ∈ init ++ [last], 0 ≤ m.score)
    (hround : ∀ m ∈ init ++ [last], ∃ b, js.Marshal m.ID m.Data = Except.ok b ∧
      js.Unmarshal b = Except.ok (m.ID, m.Data))
    (hempty : ∀ e ∈ w0.store, e.key ≠ name)
    (hperm : adm.Perm (init ++ [last]))
    (hadm : ∀ e ∈ (addAll (New memRedis name) js adm w0).2, e = none)
    (hctx : ∀ e, c.ctxErr e = none)
    (hok : (handlerRun c w0.env (init.map delivered)).2 = none)
    (herr : (c.handler (handlerRun c w0.env (init.map delivered)).1 (delivered last)).2
      = some E) :
    ((∃ K, last.score ≤ pollBound (now w0) (applyOpts opts).PollPeriod K) →
      ∃ fuel, ∀ k,
        (Dequeue (New memRedis name) js c opts (fuel + k)
          (addAll (New memRedis name) js adm w0).1).2 = Outcome.returned (some E) ∧
        handled (Dequeue (New memRedis name) js c opts (fuel + k)
          (addAll (New memRedis name) js adm w0).1).1.log
          = handled w0.log ++ (init ++ [last]).map delivered ∧
        (handled (Dequeue (New memRedis name) js c opts (fuel + k)
          (addAll (New memRedis name) js adm w0).1).1.log).map (fun m => (m.ID, m.Data))
          = (handled w0.log ++ (init ++ [last])).map (fun m => (m.ID, m.Data))) ∧
    (0 < (applyOpts opts).PollPeriod →
      -2 ^ 63 ≤ (now w0).Add (applyOpts opts).PollPeriod →
      (now w0).Add (applyOpts opts).PollPeriod < 2 ^ 63 →
      last.Deadline.UnixNano + (applyOpts opts).PollPeriod ≤ 2 ^ 63 →
      ∃ K, last.score ≤ pollBound (now w0) (applyOpts opts).PollPeriod K) ∧
    ((∀ K, pollBound (now w0) (applyOpts opts).PollPeriod K < last.score) →
      ∀ fuel,
        (Dequeue (New memRedis name) js c opts fuel
          (addAll (New memRedis name) js adm w0).1).2 = Outcome.running ∧
        ∃ done rem, init = done ++ rem ∧
          handled (Dequeue (New memRedis name) js c opts fuel
            (addAll (New memRedis name) js adm w0).1).1.log
            = handled w0.log ++ done.map delivered) := by
  obtain ⟨sc, hP, hclock⟩ := admitted_run js c name init last adm w0 E hsorted hnonneg
    hround hempty hperm hadm hctx hok herr
  refine ⟨?_, fun hp hlo hhi hlast => cover_of_range last (now w0) _ hp hlo hhi hlast, ?_⟩
  · rintro ⟨K, hK⟩
    obtain ⟨fuel, h⟩ := scenario_run js c name (applyOpts opts) w0.env (handled w0.log) init
      last E sc K [] init _ hP (by rw [hclock]; exact hK)
    refine ⟨fuel, fun k => ⟨(h k).1, (h k).2.1, ?_⟩⟩
    have h2 := (h k).2.1
    unfold Dequeue
    rw [h2]
    simp only [List.map_append, List.map_map]
    rfl
  · intro hno fuel
    obtain ⟨h1, done, rem, hinit, _, _, hlog⟩ := scenario_stuck js c name (applyOpts opts)
      w0.env (handled w0.log) init last E sc fuel [] init _ hP
      (fun K => by rw [hclock]; exact hno K)
    exact ⟨h1, done, rem, hinit, hlog⟩

theorem Dequeue_delivery_order_witness :
    ∃ fuel, ∀ k,
      (Dequeue (New memRedis "delayq") plainJson (stopAfter 3 EOF) [] (fuel + k)
        (addAll (New memRedis "delayq") plainJson
          [makeMsg 1700000000000000000 7, makeMsg 1700000000000000000 3,
            makeMsg 1700000000000000000 0]
          (emptyWorld 1700000000000000000 0)).1).2 = Outcome.returned (some EOF) ∧
      handled (Dequeue (New memRedis "delayq") plainJson (stopAfter 3 EOF) [] (fuel + k)
        (addAll (New memRedis "delayq") plainJson
          [makeMsg 1700000000000000000 7, makeMsg 1700000000000000000 3,
            makeMsg 1700000000000000000 0]
          (emptyWorld 1700000000000000000 0)).1).1.log
        = handled (emptyWorld 1700000000000000000 (0 : Nat)).log ++
          ([makeMsg 1700000000000000000 0, makeMsg 1700000000000000000 3] ++
            [makeMsg 1700000000000000000 7]).map delivered ∧
      (handled (Dequeue (New memRedis "delayq") plainJson (stopAfter 3 EOF) [] (fuel + k)
        (addAll (New memRedis "delayq") plainJson
          [makeMsg 1700000000000000000 7, makeMsg 1700000000000000000 3,
            makeMsg 1700000000000000000 0]
          (emptyWorld 1700000000000000000 0)).1).1.log).map (fun m => (m.ID, m.Data))
        = (handled (emptyWorld 1700000000000000000 (0 : Nat)).log ++
          ([makeMsg 1700000000000000000 0, makeMsg 1700000000000000000 3] ++
            [makeMsg 1700000000000000000 7])).map (fun m => (m.ID, m.Data)) :=
  (Dequeue_delivery_order plainJson (stopAfter 3 EOF) "delayq" []
    [makeMsg 1700000000000000000 0, makeMsg 1700000000000000000 3]
    (makeMsg 1700000000000000000 7)
    [makeMsg 1700000000000000000 7, makeMsg 1700000000000000000 3,
      makeMsg 1700000000000000000 0]
    (emptyWorld 1700000000000000000 0) EOF
    (by decide) (by decide)
    (fun m hm => by
      simp only [List.cons_append, List.nil_append, List.mem_cons, List.mem_singleton,
        List.not_mem_nil, or_false] at hm
      rcases hm with rfl | rfl | rfl <;> exact ⟨_, rfl, rfl⟩)
    (fun _ he => by simp [emptyWorld] at he)
    (by decide) (by decide) (fun _ => rfl) rfl rfl).1 ⟨1, by decide⟩

/-- C1 as stated does not hold. At the time 1700000000000000000 the scores are
multiples of 256 ns. Two messages with the deadlines 1700000000000000000 (ID `b`)
and 1700000000000000001 (ID `a`) get the same score; the store returns them in the
order of their members and the first invocation of the handler receives `a`, the
message with the later deadline. A message with the deadline 9223372036854775813,
after the year 2262, is admitted with a negative score and is never fetched: the
run invokes the handler on no message, whatever the fuel. With the poll period 0 a
message with a deadline 1000 ns ahead is never fetched either, `nextPoll` being
the current time in every pass. -/
theorem Dequeue_delivery_order_counterexample :
    ((0 : Time) ≤ 1700000000000000000 ∧
      (1700000000000000000 : Time) < 1700000000000000001 ∧
      (addAll testQueue plainJson
        [{ ID := "b", Data := [], Deadline := 1700000000000000000 },
          { ID := "a", Data := [], Deadline := 1700000000000000001 }]
        (emptyWorld 1700000000000000000 0)).2 = [none, none] ∧
      (Dequeue testQueue plainJson (stopAfter 2 EOF) [] 1
        (addAll testQueue plainJson
          [{ ID := "b", Data := [], Deadline := 1700000000000000000 },
            { ID := "a", Data := [], Deadline := 1700000000000000001 }]
          (emptyWorld 1700000000000000000 0)).1).2 = Outcome.returned (some EOF) ∧
      handled (Dequeue testQueue plainJson (stopAfter 2 EOF) [] 1
        (addAll testQueue plainJson
          [{ ID := "b", Data := [], Deadline := 1700000000000000000 },
            { ID := "a", Data := [], Deadline := 1700000000000000001 }]
          (emptyWorld 1700000000000000000 0)).1).1.log
        = [{ ID := "a", Data := [], Deadline := 1700000000000000000 },
            { ID := "b", Data := [], Deadline := 1700000000000000000 }]) ∧
    ((AddMsg testQueue plainJson none
        { ID := "a", Data := [], Deadline := 9223372036854775813 }
        (emptyWorld 1700000000000000000 0)).2 = none ∧
      (AddMsg testQueue plainJson none
        { ID := "a", Data := [], Deadline := 9223372036854775813 }
        (emptyWorld 1700000000000000000 0)).1.store
        = [{ key := "delayq", member := [97, 0], score := -9223372036854775808 }] ∧
      ∀ fuel,
        (Dequeue testQueue plainJson (stopAfter 1 EOF) [] fuel
          (AddMsg testQueue plainJson none
            { ID := "a", Data := [], Deadline := 9223372036854775813 }
            (emptyWorld 1700000000000000000 0)).1).2 = Outcome.running ∧
        handled (Dequeue testQueue plainJson (stopAfter 1 EOF) [] fuel
          (AddMsg testQueue plainJson none
            { ID := "a", Data := [], Deadline := 9223372036854775813 }
            (emptyWorld 1700000000000000000 0)).1).1.log = []) ∧
    ((AddMsg testQueue plainJson none
        { ID := "a", Data := [], Deadline := 1700000000000001000 }
        (emptyWorld 1700000000000000000 0)).2 = none ∧
      ∀ fuel,
        (Dequeue testQueue plainJson (stopAfter 1 EOF) [WithPollPeriod 0] fuel
          (AddMsg testQueue plainJson none
            { ID := "a", Data := [], Deadline := 1700000000000001000 }
            (emptyWorld 1700000000000000000 0)).1).2 = Outcome.running ∧
        handled (Dequeue testQueue plainJson (stopAfter 1 EOF) [WithPollPeriod 0] fuel
          (AddMsg testQueue plainJson none
            { ID := "a", Data := [], Deadline := 1700000000000001000 }
            (emptyWorld 1700000000000000000 0)).1).1.log = []) := by
  refine ⟨by decide, ⟨by decide, by decide, fun fuel => ?_⟩, ⟨by decide, fun fuel => ?_⟩⟩
  · have h := loop_idle plainJson (stopAfter 1 EOF) "delayq" (applyOpts []) (fun _ => rfl) fuel
      (AddMsg testQueue plainJson none
        { ID := "a", Data := [], Deadline := 9223372036854775813 }
        (emptyWorld 1700000000000000000 0)).1
      (by
        intro k e he _ h0
        have hs : (AddMsg testQueue plainJson none
            { ID := "a", Data := [], Deadline := 9223372036854775813 }
            (emptyWorld 1700000000000000000 (0 : Nat))).1.store
            = [{ key := "delayq", member := [97, 0], score := -9223372036854775808 }] := by
          decide
        rw [hs, List.mem_singleton] at he
        subst he
        exact absurd h0 (by decide))
    exact ⟨h.1, h.2.1⟩
  · have h := loop_idle plainJson (stopAfter 1 EOF) "delayq" (applyOpts [WithPollPeriod 0])
      (fun _ => rfl) fuel
      (AddMsg testQueue plainJson none
        { ID := "a", Data := [], Deadline := 1700000000000001000 }
        (emptyWorld 1700000000000000000 0)).1
      (by
        intro k e he _ _
        have hs : (AddMsg testQueue plainJson none
            { ID := "a", Data := [], Deadline := 1700000000000001000 }
            (emptyWorld 1700000000000000000 (0 : Nat))).1.store
            = [{ key := "delayq", member := [97, 0], score := 1700000000000001024 }] := by
          decide
        have hc : (AddMsg testQueue plainJson none
            { ID := "a", Data := [], Deadline := 1700000000000001000 }
            (emptyWorld 1700000000000000000 (0 : Nat))).1.clock = 1700000000000000000 := by
          decide
        have hp : (applyOpts [WithPollPeriod 0]).PollPeriod = 0 := rfl
        rw [hs, List.mem_singleton] at he
        subst he
        rw [hc, hp]
        have hb : pollBound 1700000000000000000 0 k = 1700000000000000000 := by
          unfold pollBound
          simp only [Time.Add, mul_zero, add_zero]
          decide
        rw [hb]
        decide)
    exact ⟨h.1, h.2.1⟩

end DeliveryOrder

/-! ## What the run of the test leaves in the queue -/

section Leftover

/-- C2. The code does not empty the store. In the scenario of the test (ten
messages with the IDs 0 to 9 and deadlines 200 ms apart from the start time
1700000000000000000, admitted in reverse into an empty queue, a handler that
returns `io.EOF` on the tenth delivery) `Dequeue` hands the ten messages to the
handler in the order of their IDs and returns `io.EOF`, and the store still holds
the entry of the tenth message under the key of the queue: `Dequeue` returns the
error of the handler before it removes the entry. The range query of the test over
the scores 0 to 1000 is empty all the same, the score of that entry being far
above 1000. -/
theorem Dequeue_store_not_emptied :
    (Dequeue testQueue plainJson (stopAfter 10 EOF) [] 2 (testWorld 1700000000000000000 10)).2
      = Outcome.returned (some EOF) ∧
    handled (Dequeue testQueue plainJson (stopAfter 10 EOF) [] 2
        (testWorld 1700000000000000000 10)).1.log
      = (List.range 10).map (makeMsg 1700000000000000000) ∧
    (Dequeue testQueue plainJson (stopAfter 10 EOF) [] 2 (testWorld 1700000000000000000 10)).1.store
      = [{ key := "delayq", member := [57, 0, 57], score := 1700000001800000000 }] ∧
    (memRedis.ZRangeByScore
        (Dequeue testQueue plainJson (stopAfter 10 EOF) [] 2
          (testWorld 1700000000000000000 10)).1.store none "delayq" 0 1000).2
      = Except.ok [] ∧
    queueTuples "delayq" (Dequeue testQueue plainJson (stopAfter 10 EOF) [] 2
        (testWorld 1700000000000000000 10)).1.store
      = [{ Member := [57, 0, 57], Score := 1700000001800000000 }] :=
  ⟨by decide, by decide, by decide, rfl, by decide⟩

end Leftover

end Delayq
